import Mathlib

/-!
Verification of the churn-core task engine.

Shallow embedding conventions:
* JS `Date` values are modelled as integers: milliseconds since the Unix
  epoch, interpreted in UTC (plain `ℤ`).  `getTime` is the identity.
* JS `number` results of priority computations are modelled as exact
  rationals (`ℚ`); `Math.pow` with a non-integral exponent is kept abstract
  as an explicit function parameter `pow : ℚ → ℚ → ℚ`.
* `HH:MM` time-of-day strings are modelled as hour/minute pairs (`HHMM`);
  string parsing itself is plumbing outside the verified core.
* The host platform's date library (used by `setDate`/`setMonth`/`getDay`)
  is not part of the repository; it is modelled by an explicit proleptic
  Gregorian calendar below (`civilFromDays` / `daysFromCivil`).
* The SQLite store is modelled as an in-memory list of tasks plus a list of
  completion rows (`DB`); `getTask` is lookup by id.
-/

/-- One day in milliseconds, the `msPerDay` constant of the source. -/
def msPerDay : ℤ := 86400000

/-- Start of the UTC day containing `t`: JS `setHours(0,0,0,0)` in UTC. -/
def startOfDayMs (t : ℤ) : ℤ := (t / msPerDay) * msPerDay

/-- UTC day number of `t` (days since 1970-01-01). -/
def dayNumber (t : ℤ) : ℤ := t / msPerDay

/-- JS `Date.getDay()` in UTC: 0 = Sunday … 6 = Saturday.
    Day 0 (1970-01-01) was a Thursday, weekday 4. -/
def jsGetDay (t : ℤ) : ℤ := (dayNumber t + 4) % 7

/-- JS `Date.getHours()` in UTC. -/
def jsGetHours (t : ℤ) : ℤ := (t % msPerDay) / 3600000

/-- JS `Date.getMinutes()` in UTC. -/
def jsGetMinutes (t : ℤ) : ℤ := (t % 3600000) / 60000

-- ===== Proleptic Gregorian calendar (host date library model) =====

/-- Gregorian leap-year predicate. -/
def isLeap (y : ℤ) : Bool := decide ((y % 4 = 0 ∧ y % 100 ≠ 0) ∨ y % 400 = 0)

/-- Number of days in year `y`. -/
def daysInYear (y : ℤ) : ℤ := if isLeap y then 366 else 365

/-- Number of leap years strictly before year `y` (proleptic Gregorian). -/
def leapsBefore (y : ℤ) : ℤ := (y - 1) / 4 - (y - 1) / 100 + (y - 1) / 400

/-- Day number (days since 1970-01-01) of January 1 of year `y`. -/
def daysBeforeYear (y : ℤ) : ℤ := 365 * (y - 1970) + (leapsBefore y - leapsBefore 1970)

/-- Length of month `m` (1..12) of year `y`. -/
def monthLen (y m : ℤ) : ℤ :=
  if m = 1 then 31 else if m = 2 then (if isLeap y then 29 else 28)
  else if m = 3 then 31 else if m = 4 then 30 else if m = 5 then 31
  else if m = 6 then 30 else if m = 7 then 31 else if m = 8 then 31
  else if m = 9 then 30 else if m = 10 then 31 else if m = 11 then 30 else 31

/-- Days of year `y` strictly before month `m` (1..13); `m = 13` gives the
    whole year. -/
def monthsBefore (y m : ℤ) : ℤ :=
  if m ≤ 1 then 0 else if m ≤ 2 then 31 else
  (if m ≤ 3 then 59 else if m ≤ 4 then 90 else if m ≤ 5 then 120
   else if m ≤ 6 then 151 else if m ≤ 7 then 181 else if m ≤ 8 then 212
   else if m ≤ 9 then 243 else if m ≤ 10 then 273 else if m ≤ 11 then 304
   else if m ≤ 12 then 334 else 365) + (if isLeap y then 1 else 0)

/-- Scan forward over years consuming days; fuel-bounded. -/
def findYear (y d : ℤ) : ℕ → ℤ × ℤ
  | 0 => (y, d)
  | fuel + 1 => if d < daysInYear y then (y, d) else findYear (y + 1) (d - daysInYear y) fuel

/-- Scan forward over months of year `y` consuming a day-of-year; fuel-bounded. -/
def findMonth (y m doy : ℤ) : ℕ → ℤ × ℤ
  | 0 => (m, doy)
  | fuel + 1 => if doy < monthLen y m then (m, doy) else findMonth y (m + 1) (doy - monthLen y m) fuel

/-- Year/day-of-year decomposition of a day number: 400-year-era reduction
    followed by a year scan. -/
def yearDoy (n : ℤ) : ℤ × ℤ :=
  findYear (1970 + (n / 146097) * 400) (n % 146097) 401

/-- Civil date (year, month 1..12, day 1..31) of a day number. -/
def civilFromDays (n : ℤ) : ℤ × ℤ × ℤ :=
  ((yearDoy n).1, (findMonth (yearDoy n).1 1 (yearDoy n).2 12).1,
    (findMonth (yearDoy n).1 1 (yearDoy n).2 12).2 + 1)

/-- Day number of a civil date; `d` beyond the month length rolls over,
    exactly like JS `Date` field normalization. -/
def daysFromCivil (y m d : ℤ) : ℤ := daysBeforeYear y + monthsBefore y m + (d - 1)

/-- JS `next.setMonth(next.getMonth() + 1); next.setHours(0,0,0,0)` in UTC:
    midnight of the same day-of-month one calendar month later (with JS
    overflow normalization). -/
def jsNextMonthStartOfDay (t : ℤ) : ℤ :=
  (if (civilFromDays (dayNumber t)).2.1 = 12 then
    daysFromCivil ((civilFromDays (dayNumber t)).1 + 1) 1 (civilFromDays (dayNumber t)).2.2
  else
    daysFromCivil (civilFromDays (dayNumber t)).1 ((civilFromDays (dayNumber t)).2.1 + 1)
      (civilFromDays (dayNumber t)).2.2) * msPerDay

-- ===== Calendar lemmas =====

theorem daysBeforeYear_succ (y : ℤ) :
    daysBeforeYear (y + 1) = daysBeforeYear y + daysInYear y := by
  unfold daysBeforeYear leapsBefore daysInYear isLeap
  simp only [decide_eq_true_eq]
  split <;> omega

theorem daysBeforeYear_era (era : ℤ) :
    daysBeforeYear (1970 + era * 400) = era * 146097 := by
  unfold daysBeforeYear leapsBefore
  omega

theorem daysInYear_bounds (y : ℤ) : 365 ≤ daysInYear y ∧ daysInYear y ≤ 366 := by
  unfold daysInYear
  split <;> omega

theorem monthsBefore_succ (y m : ℤ) (h1 : 1 ≤ m) (h2 : m ≤ 12) :
    monthsBefore y (m + 1) = monthsBefore y m + monthLen y m := by
  unfold monthsBefore monthLen
  interval_cases m <;> simp <;> split <;> omega

theorem monthLen_bounds (y m : ℤ) (h1 : 1 ≤ m) (h2 : m ≤ 12) :
    28 ≤ monthLen y m ∧ monthLen y m ≤ 31 := by
  unfold monthLen
  interval_cases m <;> simp <;> split <;> omega

theorem monthsBefore_one (y : ℤ) : monthsBefore y 1 = 0 := by
  unfold monthsBefore
  norm_num

theorem monthsBefore_year (y : ℤ) : monthsBefore y 13 = daysInYear y := by
  simp only [monthsBefore, daysInYear]
  norm_num
  split <;> omega

theorem findYear_spec : ∀ (fuel : ℕ) (y d : ℤ), 0 ≤ d → d < 365 * (fuel : ℤ) →
    daysBeforeYear (findYear y d fuel).1 + (findYear y d fuel).2 = daysBeforeYear y + d ∧
    0 ≤ (findYear y d fuel).2 ∧ (findYear y d fuel).2 < daysInYear (findYear y d fuel).1 := by
  intro fuel
  induction fuel with
  | zero => intro y d h0 h1; omega
  | succ n ih =>
    intro y d h0 h1
    unfold findYear
    split
    · exact ⟨rfl, h0, by assumption⟩
    · have hy := daysInYear_bounds y
      have hrec := ih (y + 1) (d - daysInYear y) (by omega) (by push_cast at h1 ⊢; omega)
      rw [daysBeforeYear_succ] at hrec
      exact ⟨by omega, hrec.2⟩

theorem findMonth_spec : ∀ (fuel : ℕ) (y m doy : ℤ), 1 ≤ m → m + (fuel : ℤ) = 13 →
    0 ≤ doy → doy < monthsBefore y 13 - monthsBefore y m →
    monthsBefore y (findMonth y m doy fuel).1 + (findMonth y m doy fuel).2
      = monthsBefore y m + doy ∧
    0 ≤ (findMonth y m doy fuel).2 ∧
    (findMonth y m doy fuel).2 < monthLen y (findMonth y m doy fuel).1 ∧
    1 ≤ (findMonth y m doy fuel).1 ∧ (findMonth y m doy fuel).1 ≤ 12 := by
  intro fuel
  induction fuel with
  | zero =>
    intro y m doy h1 h13 h0 hlt
    have hm : m = 13 := by push_cast at h13; omega
    rw [hm] at hlt
    omega
  | succ n ih =>
    intro y m doy h1 h13 h0 hlt
    unfold findMonth
    split
    · refine ⟨rfl, h0, by assumption, h1, by push_cast at h13; omega⟩
    · have hm12 : m ≤ 12 := by push_cast at h13; omega
      have hsucc := monthsBefore_succ y m h1 hm12
      have hrec := ih y (m + 1) (doy - monthLen y m) (by omega)
        (by push_cast at h13 ⊢; omega) (by omega) (by omega)
      exact ⟨by omega, hrec.2⟩

theorem civilFromDays_spec (n : ℤ) :
    daysFromCivil (civilFromDays n).1 (civilFromDays n).2.1 (civilFromDays n).2.2 = n ∧
    1 ≤ (civilFromDays n).2.1 ∧ (civilFromDays n).2.1 ≤ 12 ∧
    1 ≤ (civilFromDays n).2.2 := by
  have hdoe0 : 0 ≤ n % 146097 := Int.emod_nonneg n (by norm_num)
  have hdoe1 : n % 146097 < 146097 := Int.emod_lt_of_pos n (by norm_num)
  have heq : 146097 * (n / 146097) + n % 146097 = n := Int.ediv_add_emod n 146097
  have hyd := findYear_spec 401 (1970 + (n / 146097) * 400) (n % 146097) hdoe0 (by push_cast; omega)
  rw [daysBeforeYear_era] at hyd
  rcases hfy : findYear (1970 + (n / 146097) * 400) (n % 146097) 401 with ⟨y, doy⟩
  rw [hfy] at hyd
  dsimp only at hyd
  have hmd := findMonth_spec 12 y 1 doy (by norm_num) (by norm_num) hyd.2.1
    (by rw [monthsBefore_year, monthsBefore_one]; omega)
  rw [monthsBefore_one] at hmd
  rcases hfm : findMonth y 1 doy 12 with ⟨m, dm⟩
  rw [hfm] at hmd
  dsimp only at hmd
  have hcd : civilFromDays n = (y, m, dm + 1) := by
    unfold civilFromDays yearDoy
    rw [hfy]
    dsimp only
    rw [hfm]
  rw [hcd]
  dsimp only
  unfold daysFromCivil
  refine ⟨by omega, hmd.2.2.2.1, hmd.2.2.2.2, by omega⟩

theorem jsNextMonthStartOfDay_gt (t : ℤ) : t < jsNextMonthStartOfDay t := by
  have hday : t < (dayNumber t + 1) * msPerDay := by
    unfold dayNumber msPerDay
    omega
  have hc := civilFromDays_spec (dayNumber t)
  unfold jsNextMonthStartOfDay
  generalize hy : (civilFromDays (dayNumber t)).1 = y at *
  generalize hm0 : (civilFromDays (dayNumber t)).2.1 = m at *
  generalize hd0 : (civilFromDays (dayNumber t)).2.2 = d at *
  have hrt : daysFromCivil y m d = dayNumber t := hc.1
  have h28 : daysFromCivil y m d + 28 ≤
      (if m = 12 then daysFromCivil (y + 1) 1 d else daysFromCivil y (m + 1) d) := by
    by_cases hm : m = 12
    · rw [if_pos hm, hm]
      unfold daysFromCivil
      rw [daysBeforeYear_succ, monthsBefore_one]
      have h12 : monthsBefore y 12 + monthLen y 12 = monthsBefore y 13 :=
        (monthsBefore_succ y 12 (by norm_num) (by norm_num)).symm
      rw [monthsBefore_year] at h12
      have hml := monthLen_bounds y 12 (by norm_num) (by norm_num)
      omega
    · rw [if_neg hm]
      unfold daysFromCivil
      have hm1 : 1 ≤ m := hc.2.1
      have hm12 : m ≤ 12 := hc.2.2.1
      have hsucc := monthsBefore_succ y m hm1 hm12
      have hml := monthLen_bounds y m hm1 hm12
      omega
  have hms : (0:ℤ) < msPerDay := by unfold msPerDay; norm_num
  calc t < (dayNumber t + 1) * msPerDay := hday
    _ ≤ (if m = 12 then daysFromCivil (y + 1) 1 d else daysFromCivil y (m + 1) d) * msPerDay := by
        apply mul_le_mul_of_nonneg_right _ (le_of_lt hms)
        omega

namespace Churn

-- ===== Data model (src/types.ts) =====

/-- Wall-clock time of day, the parsed form of an `HH:MM` string. -/
structure HHMM where
  h : ℕ
  m : ℕ
deriving DecidableEq, Repr

/-- Minutes since midnight of an `HH:MM` value: the planner's `parseTime`. -/
def parseTime (t : HHMM) : ℤ := (t.h : ℤ) * 60 + (t.m : ℤ)

inductive TaskStatus where
  | Open
  | InProgress
  | Completed
  | Blocked
deriving DecidableEq, Repr

inductive RecurrenceMode where
  | calendar
  | completion
deriving DecidableEq, Repr

inductive RecurrenceType where
  | daily
  | weekly
  | monthly
  | interval
deriving DecidableEq, Repr

inductive IntervalUnit where
  | days
  | weeks
  | months
deriving DecidableEq, Repr

/-- `RecurrencePattern` of src/types.ts.  Weekday fields are typed 0..6 as the
    data model declares. -/
structure RecurrencePattern where
  mode : RecurrenceMode
  type : RecurrenceType
  interval : Option ℕ := none
  unit : Option IntervalUnit := none
  dayOfWeek : Option (Fin 7) := none
  daysOfWeek : Option (List (Fin 7)) := none
  timeOfDay : Option HHMM := none
  anchor : Option ℤ := none
deriving DecidableEq, Repr

inductive CurveType where
  | linear
  | exponential
  | hard_window
  | blocked
  | accumulator
deriving DecidableEq, Repr

/-- `CurveConfig` of src/types.ts. -/
structure CurveConfig where
  type : CurveType
  start_date : Option ℤ := none
  deadline : Option ℤ := none
  exponent : Option ℚ := none
  window_start : Option ℤ := none
  window_end : Option ℤ := none
  priority : Option ℚ := none
  dependencies : Option (List ℕ) := none
  then_curve : Option CurveType := none
  recurrence : Option RecurrencePattern := none
  buildup_rate : Option ℚ := none
deriving DecidableEq, Repr

/-- `Task` of src/types.ts. -/
structure Task where
  id : ℕ
  title : String := ""
  project : Option String := none
  bucket_id : Option ℕ := none
  tags : List String := []
  deadline : Option ℤ := none
  estimate_minutes : Option ℤ := none
  recurrence_pattern : Option RecurrencePattern := none
  last_completed_at : Option ℤ := none
  next_due_at : Option ℤ := none
  window_start : Option HHMM := none
  window_end : Option HHMM := none
  dependencies : List ℕ := []
  curve_config : CurveConfig
  status : TaskStatus := .Open
  created_at : ℤ := 0
  updated_at : ℤ := 0
deriving DecidableEq, Repr

/-- A completion row (the fields `TaskService.complete` records). -/
structure Completion where
  task_id : ℕ
  completed_at : ℤ
  day_of_week : ℤ
  hour_of_day : ℤ
  scheduled_minutes : Option ℤ
deriving DecidableEq, Repr

/-- The persistent store: tasks plus completion rows. -/
structure Database where
  tasks : List Task
  completions : List Completion
deriving DecidableEq, Repr

/-- Lookup of a task by id in a task list. -/
def getTaskIn (tasks : List Task) (id : ℕ) : Option Task :=
  tasks.find? (fun t => t.id == id)

/-- `Database.getTask`. -/
def Database.getTask (db : Database) (id : ℕ) : Option Task := getTaskIn db.tasks id

-- ===== Priority curves (src/curves) =====

/-- `LinearCurve` (src/curves/linear.ts); the constructor validation
    `deadline ≤ start` is enforced by the factory model below. -/
structure LinearCurve where
  startDate : ℤ
  deadline : ℤ
deriving DecidableEq, Repr

def LinearCurve.calculate (c : LinearCurve) (datetime : ℤ) : ℚ :=
  if datetime < c.startDate then 0
  else if datetime > c.deadline then
    1 + ((datetime - c.deadline : ℤ) : ℚ) / ((c.deadline - c.startDate : ℤ) : ℚ)
  else ((datetime - c.startDate : ℤ) : ℚ) / ((c.deadline - c.startDate : ℤ) : ℚ)

/-- `ExponentialCurve` (src/curves/exponential.ts).  `Math.pow` is the
    abstract `pow` parameter. -/
structure ExponentialCurve where
  startDate : ℤ
  deadline : ℤ
  exponent : ℚ
deriving DecidableEq, Repr

def ExponentialCurve.calculate (pow : ℚ → ℚ → ℚ) (c : ExponentialCurve) (datetime : ℤ) : ℚ :=
  if datetime < c.startDate then 0
  else if datetime > c.deadline then
    1 + ((datetime - c.deadline : ℤ) : ℚ) / ((c.deadline - c.startDate : ℤ) : ℚ)
  else pow (((datetime - c.startDate : ℤ) : ℚ) / ((c.deadline - c.startDate : ℤ) : ℚ)) c.exponent

/-- `HardWindowCurve` (src/curves/hard-window.ts). -/
structure HardWindowCurve where
  windowStart : ℤ
  windowEnd : ℤ
  priority : ℚ
deriving DecidableEq, Repr

def HardWindowCurve.calculate (c : HardWindowCurve) (datetime : ℤ) : ℚ :=
  if c.windowStart ≤ datetime ∧ datetime ≤ c.windowEnd then c.priority else 0

/-- `AccumulatorCurve` (src/curves/accumulator.ts). -/
structure AccumulatorCurve where
  recurrence : RecurrencePattern
  lastCompleted : Option ℤ
  nextDue : ℤ
  buildupRate : ℚ
deriving DecidableEq, Repr

def unitDaysOf (u : IntervalUnit) : ℚ :=
  match u with
  | .days => 1
  | .weeks => 7
  | .months => 30

/-- `getExpectedIntervalDays`.  The TS `switch` has a `default: return 7`
    branch which is unreachable for the four declared `RecurrenceType`
    values, so the model's match is total. -/
def AccumulatorCurve.getExpectedIntervalDays (c : AccumulatorCurve) : ℚ :=
  match c.recurrence.type with
  | .daily => 1
  | .weekly => 7
  | .monthly => 30
  | .interval => ((c.recurrence.interval.getD 1 : ℕ) : ℚ) * unitDaysOf (c.recurrence.unit.getD .days)

def AccumulatorCurve.calculateCalendarMode (c : AccumulatorCurve) (now due : ℤ) : ℚ :=
  if ((due - now : ℤ) : ℚ) / 86400000 > c.getExpectedIntervalDays / 2 then 0.2
  else if ((due - now : ℤ) : ℚ) / 86400000 < 0 then
    min 1.5 (1.0 + |((due - now : ℤ) : ℚ) / 86400000| * c.buildupRate)
  else 0.2 + (1 - (((due - now : ℤ) : ℚ) / 86400000) / (c.getExpectedIntervalDays / 2)) * 0.8

def AccumulatorCurve.calculateCompletionMode (c : AccumulatorCurve) (now : ℤ) : ℚ :=
  ((fun ratio =>
    if ratio < 0.5 then 0.1
    else if ratio < 0.8 then 0.3
    else if ratio < 1.0 then 0.6
    else if ratio < 1.2 then 0.9
    else 1.0) :  ℚ → ℚ)
  ((((now : ℚ) - (match c.lastCompleted with
      | some lc => (lc : ℚ)
      | none => (now : ℚ) - c.getExpectedIntervalDays * 86400000)) / 86400000) /
    c.getExpectedIntervalDays)

def AccumulatorCurve.calculate (c : AccumulatorCurve) (datetime : ℤ) : ℚ :=
  if c.recurrence.mode = .calendar then c.calculateCalendarMode datetime c.nextDue
  else c.calculateCompletionMode datetime

/-- The curve family built by `CurveFactory.create`; `blocked` carries its
    dependency ids and the wrapped inner curve. -/
inductive Curve where
  | linear : LinearCurve → Curve
  | exponential : ExponentialCurve → Curve
  | hardWindow : HardWindowCurve → Curve
  | blocked : List ℕ → Curve → Curve
  | accumulator : AccumulatorCurve → Curve
deriving DecidableEq, Repr

/-- `TaskService.allDependenciesComplete` (also `BlockedCurve`'s private
    copy, which is textually identical in the source). -/
def allDependenciesComplete (tasks : List Task) (deps : List ℕ) : Bool :=
  deps.all (fun depId =>
    match getTaskIn tasks depId with
    | some t => t.status == .Completed
    | none => false)

/-- Curve evaluation: `calculate(datetime)` of each curve class;
    `BlockedCurve.calculate` consults the task store. -/
def Curve.eval (tasks : List Task) (pow : ℚ → ℚ → ℚ) : Curve → ℤ → ℚ
  | .linear c, t => c.calculate t
  | .exponential c, t => c.calculate pow t
  | .hardWindow c, t => c.calculate t
  | .accumulator c, t => c.calculate t
  | .blocked deps inner, t =>
    if allDependenciesComplete tasks deps then inner.eval tasks pow t else 0

-- ===== Curve factory (src/curves/factory.ts) =====

/-- `CurveFactory.create(config, dependencyChecker?, task?)`.
    `hasChecker` models presence of the dependency-checker argument;
    `now` models the wall clock read by the `new Date()` defaults.
    Construction errors (constructor validations included) are `Except.error`
    with the source's message. -/
def CurveFactory.create (config : CurveConfig) (hasChecker : Bool) (task : Option Task)
    (now : ℤ) : Except String Curve :=
  match config.type with
  | .linear =>
    if config.deadline.getD (now + 7 * 86400000) ≤ config.start_date.getD now then
      .error "Deadline must be after start date"
    else
      .ok (.linear { startDate := config.start_date.getD now,
                     deadline := config.deadline.getD (now + 7 * 86400000) })
  | .exponential =>
    if config.deadline.getD (now + 7 * 86400000) ≤ config.start_date.getD now then
      .error "Deadline must be after start date"
    else if config.exponent.getD 2.0 < 1.0 ∨ config.exponent.getD 2.0 > 5.0 then
      .error "Exponent must be between 1.0 and 5.0"
    else
      .ok (.exponential { startDate := config.start_date.getD now,
                          deadline := config.deadline.getD (now + 7 * 86400000),
                          exponent := config.exponent.getD 2.0 })
  | .hard_window =>
    match config.window_start, config.window_end with
    | some ws, some we =>
      if we ≤ ws then .error "Window end must be after window start"
      else if config.priority.getD 1.0 < 0 ∨ config.priority.getD 1.0 > 2.0 then
        .error "Priority must be between 0 and 2.0"
      else .ok (.hardWindow { windowStart := ws, windowEnd := we,
                              priority := config.priority.getD 1.0 })
    | _, _ => .error "Hard window curve requires window_start and window_end"
  | .blocked =>
    if hasChecker = false then .error "DependencyChecker required for blocked curve"
    else
      match h : config.dependencies with
      | none => .error "Blocked curve requires dependencies"
      | some [] => .error "Blocked curve requires dependencies"
      | some (d :: ds) =>
        match CurveFactory.create
            { type := config.then_curve.getD .linear,
              start_date := some (config.start_date.getD now),
              deadline := config.deadline } hasChecker none now with
        | .error e => .error e
        | .ok inner => .ok (.blocked (d :: ds) inner)
  | .accumulator =>
    match config.recurrence with
    | none => .error "Accumulator curve requires recurrence pattern"
    | some rec =>
      .ok (.accumulator { recurrence := rec,
                          lastCompleted := task.bind Task.last_completed_at,
                          nextDue := (task.bind Task.next_due_at).getD now,
                          buildupRate := config.buildup_rate.getD 0.1 })
termination_by (if config.dependencies.getD [] = [] then 0 else 1)
decreasing_by simp [h]

-- ===== Task service (src/task-service.ts) =====

namespace TaskService

/-- `isInTimeWindow(datetime, windowStart, windowEnd)`. -/
def isInTimeWindow (datetime : ℤ) (windowStart windowEnd : HHMM) : Bool :=
  if parseTime windowStart > parseTime windowEnd then
    decide (jsGetHours datetime * 60 + jsGetMinutes datetime ≥ parseTime windowStart) ||
    decide (jsGetHours datetime * 60 + jsGetMinutes datetime ≤ parseTime windowEnd)
  else
    decide (parseTime windowStart ≤ jsGetHours datetime * 60 + jsGetMinutes datetime) &&
    decide (jsGetHours datetime * 60 + jsGetMinutes datetime ≤ parseTime windowEnd)

/-- `calculateLinearPriority(task, datetime)`: the synthetic linear fallback. -/
def calculateLinearPriority (task : Task) (datetime : ℤ) : ℚ :=
  if datetime < task.created_at then 0
  else if datetime > task.deadline.getD (task.created_at + 7 * 86400000) then
    1 + ((datetime - task.deadline.getD (task.created_at + 7 * 86400000) : ℤ) : ℚ) /
      ((task.deadline.getD (task.created_at + 7 * 86400000) - task.created_at : ℤ) : ℚ)
  else ((datetime - task.created_at : ℤ) : ℚ) /
    ((task.deadline.getD (task.created_at + 7 * 86400000) - task.created_at : ℤ) : ℚ)

/-- True when the task has both window fields and `datetime` is outside the
    window: the guard of the early-return 0 in `calculateTaskPriority`. -/
def outsideWindow (task : Task) (datetime : ℤ) : Bool :=
  match task.window_start, task.window_end with
  | some ws, some we => !(isInTimeWindow datetime ws we)
  | _, _ => false

/-- `calculateTaskPriority(task, datetime)`.  `wallClock` is the `new Date()`
    value read by factory defaults; the curve-construction `try`/`catch`
    becomes the `match` on `Except`. -/
def calculateTaskPriority (tasks : List Task) (pow : ℚ → ℚ → ℚ) (task : Task)
    (datetime wallClock : ℤ) : ℚ :=
  if task.dependencies.length > 0 && !(allDependenciesComplete tasks task.dependencies) then 0
  else if outsideWindow task datetime then 0
  else
    match CurveFactory.create task.curve_config true (some task) wallClock with
    | .ok curve => curve.eval tasks pow datetime
    | .error _ => calculateLinearPriority task datetime

/-- `Task` together with its computed priority (`TaskWithPriority`). -/
structure TaskWithPriority where
  task : Task
  priority : ℚ
deriving DecidableEq, Repr

/-- The comparator `(a, b) => b.priority - a.priority`: `a` may precede `b`
    iff `b.priority ≤ a.priority`. -/
def priorityDescLe (a b : TaskWithPriority) : Bool := decide (b.priority ≤ a.priority)

/-- Status filter of `getByPriority`: open or in-progress. -/
def isOpenOrInProgress (t : Task) : Bool :=
  t.status == .Open || t.status == .InProgress

/-- `getByPriority(limit?, datetime)`.  `limit = some 0` is JS-falsy, hence
    hits the no-truncation path exactly like `limit = none`. -/
def getByPriority (db : Database) (pow : ℚ → ℚ → ℚ) (limit : Option ℕ)
    (now wallClock : ℤ) : List TaskWithPriority :=
  let sorted :=
    ((db.tasks.filter isOpenOrInProgress).map
      (fun t => TaskWithPriority.mk t (calculateTaskPriority db.tasks pow t now wallClock))).mergeSort
      priorityDescLe
  match limit with
  | some n => if n ≠ 0 then sorted.take n else sorted
  | none => sorted

end TaskService

-- ===== Recurrence engine and lifecycle (src/task-service.ts) =====

/-- JS truthiness of `pattern.interval` (a number: 0 is falsy). -/
def intervalTruthy (o : Option ℕ) : Bool :=
  match o with
  | some n => n != 0
  | none => false

/-- Days per interval unit, the `unitDays` record of the source. -/
def unitDaysInt (u : IntervalUnit) : ℤ :=
  match u with
  | .days => 1
  | .weeks => 7
  | .months => 30

namespace TaskService

/-- Completion-mode `intervalDays` computation inside `calculateNextDue`. -/
def completionIntervalDays (pattern : RecurrencePattern) : ℤ :=
  if pattern.type = .daily then 1
  else if pattern.type = .weekly then 7
  else if pattern.type = .monthly then 30
  else if pattern.type = .interval ∧ intervalTruthy pattern.interval ∧ pattern.unit.isSome then
    (pattern.interval.getD 1 : ℤ) * unitDaysInt (pattern.unit.getD .days)
  else 7

/-- The weekly `daysOfWeek` search: up to 7 iterations stepping one day at a
    time from `next`, returning `next` unchanged when fuel runs out (the
    source's unreachable fallback `return next`). -/
def weeklyMultiSearch (daysOfWeek : List (Fin 7)) (next : ℤ) : ℕ → ℤ
  | 0 => next
  | fuel + 1 =>
    if (daysOfWeek.map (fun d => (d.val : ℤ))).contains (jsGetDay next) then next
    else weeklyMultiSearch daysOfWeek (next + msPerDay) fuel

/-- The calendar-interval `while (next <= now) next += step` loop.  The
    source diverges for a non-positive step; the model returns `next`
    unchanged in that (unreachable under the caller's truthiness guard)
    case. -/
def intervalSearch (stepMs now next : ℤ) : ℤ :=
  if h : 0 < stepMs then
    if next ≤ now then intervalSearch stepMs now (next + stepMs) else next
  else next
termination_by (now + stepMs - next).toNat
decreasing_by omega

/-- `calculateNextDue(task, completedAt)`; `none` models the thrown error
    when the task has no recurrence pattern. -/
def calculateNextDue (task : Task) (completedAt : ℤ) : Option ℤ :=
  match task.recurrence_pattern with
  | none => none
  | some pattern =>
    if pattern.mode = .completion then
      some (completedAt + completionIntervalDays pattern * msPerDay)
    else if pattern.type = .daily then
      some (startOfDayMs (completedAt + msPerDay))
    else if pattern.type = .weekly ∧ (pattern.daysOfWeek.getD []).length > 0 then
      some (weeklyMultiSearch (pattern.daysOfWeek.getD []) (startOfDayMs (completedAt + msPerDay)) 7)
    else if pattern.type = .weekly ∧ pattern.dayOfWeek.isSome then
      some (startOfDayMs (completedAt +
        (if ((pattern.dayOfWeek.getD 0).val : ℤ) - jsGetDay completedAt ≤ 0 then
          ((pattern.dayOfWeek.getD 0).val : ℤ) - jsGetDay completedAt + 7
        else ((pattern.dayOfWeek.getD 0).val : ℤ) - jsGetDay completedAt) * msPerDay))
    else if pattern.type = .monthly then
      some (jsNextMonthStartOfDay completedAt)
    else if pattern.type = .interval ∧ intervalTruthy pattern.interval ∧ pattern.unit.isSome then
      some (intervalSearch ((pattern.interval.getD 1 : ℤ) * unitDaysInt (pattern.unit.getD .days) * msPerDay)
        completedAt (pattern.anchor.getD task.created_at))
    else
      some (completedAt + 7 * msPerDay)

/-- Point update of every task with the given id (ids are unique in SQLite;
    the model updates all matches, lookup returns the first). -/
def updateTaskIn (tasks : List Task) (id : ℕ) (f : Task → Task) : List Task :=
  tasks.map (fun t => if t.id == id then f t else t)

/-- `complete(id, completedAt)`: `none` models the task-not-found error.
    Records a completion row, sets `last_completed_at`, then either computes
    the next due instant and re-opens (recurring) or marks completed. -/
def complete (db : Database) (id : ℕ) (completedAt : ℤ) : Option Database :=
  match db.getTask id with
  | none => none
  | some task =>
    let withCompletion : Database :=
      { db with completions := db.completions ++
          [{ task_id := id, completed_at := completedAt,
             day_of_week := jsGetDay completedAt, hour_of_day := jsGetHours completedAt,
             scheduled_minutes := task.estimate_minutes }] }
    let afterLast : Database :=
      { withCompletion with
        tasks := updateTaskIn withCompletion.tasks id
          (fun t => { t with last_completed_at := some completedAt }) }
    match calculateNextDue task completedAt with
    | some nextDue =>
      some { afterLast with
        tasks := updateTaskIn
          (updateTaskIn afterLast.tasks id (fun t => { t with next_due_at := some nextDue }))
          id (fun t => { t with status := .Open }) }
    | none =>
      some { afterLast with
        tasks := updateTaskIn afterLast.tasks id (fun t => { t with status := .Completed }) }

end TaskService

-- ===== Dependency validation (src/task-service.ts, validateDependencies) =====

/-- The ids that can ever enter the BFS via store reads: every stored task's
    id and every id any stored task depends on. -/
def depUniverse (tasks : List Task) : Finset ℕ :=
  tasks.foldr (fun t acc => insert t.id (acc ∪ t.dependencies.toFinset)) ∅

/-- Upper bound on the number of ids one BFS step can enqueue. -/
def maxDeps (tasks : List Task) : ℕ :=
  tasks.foldr (fun t acc => max acc t.dependencies.length) 0

theorem getTaskIn_mem {tasks : List Task} {c : ℕ} {t : Task}
    (h : getTaskIn tasks c = some t) : t ∈ tasks ∧ t.id = c := by
  unfold getTaskIn at h
  refine ⟨List.mem_of_find?_eq_some h, ?_⟩
  have := List.find?_some h
  simpa using this

theorem mem_depUniverse_id {tasks : List Task} {t : Task} (h : t ∈ tasks) :
    t.id ∈ depUniverse tasks := by
  induction tasks with
  | nil => cases h
  | cons a l ih =>
    unfold depUniverse
    rcases List.mem_cons.mp h with h1 | h1
    · subst h1
      simp [List.foldr]
    · simp only [List.foldr]
    
      have := ih h1
      unfold depUniverse at this
      simp [Finset.mem_insert, Finset.mem_union]
      right
      left
      exact this

theorem maxDeps_bound {tasks : List Task} {t : Task} (h : t ∈ tasks) :
    t.dependencies.length ≤ maxDeps tasks := by
  induction tasks with
  | nil => cases h
  | cons a l ih =>
    unfold maxDeps
    rcases List.mem_cons.mp h with h1 | h1
    · subst h1
      simp [List.foldr]
    · simp only [List.foldr]
      have := ih h1
      unfold maxDeps at this
      omega

/-- The BFS of `validateDependencies`: returns `true` iff it reaches
    `ex` (the excluded task id), i.e. iff the source throws *circular*. -/
def bfsCheck (tasks : List Task) (ex : ℕ) (visited : Finset ℕ) : List ℕ → Bool
  | [] => false
  | current :: rest =>
    if current = ex then true
    else if h2 : current ∈ visited then bfsCheck tasks ex visited rest
    else
      match h3 : getTaskIn tasks current with
      | some t => bfsCheck tasks ex (insert current visited) (rest ++ t.dependencies)
      | none => bfsCheck tasks ex (insert current visited) rest
termination_by q => ((depUniverse tasks \ visited).card) * (maxDeps tasks + 1) + q.length
decreasing_by
  · simp only [List.length_cons]
    omega
  · have hmem : current ∈ depUniverse tasks := by
      have := getTaskIn_mem h3
      have h4 := mem_depUniverse_id this.1
      rwa [this.2] at h4
    have hcard : (depUniverse tasks \ insert current visited).card
        = (depUniverse tasks \ visited).card - 1 := by
      rw [Finset.sdiff_insert]
      exact Finset.card_erase_of_mem (Finset.mem_sdiff.mpr ⟨hmem, h2⟩)
    have hpos : 0 < (depUniverse tasks \ visited).card :=
      Finset.card_pos.mpr ⟨current, Finset.mem_sdiff.mpr ⟨hmem, h2⟩⟩
    have hlen : t.dependencies.length ≤ maxDeps tasks := maxDeps_bound (getTaskIn_mem h3).1
    simp only [List.length_append, List.length_cons]
    have h5 : (depUniverse tasks \ insert current visited).card * (maxDeps tasks + 1)
        = (depUniverse tasks \ visited).card * (maxDeps tasks + 1) - (maxDeps tasks + 1) := by
      rw [hcard]
      have : 1 ≤ (depUniverse tasks \ visited).card := hpos
      calc ((depUniverse tasks \ visited).card - 1) * (maxDeps tasks + 1)
          = (depUniverse tasks \ visited).card * (maxDeps tasks + 1) - 1 * (maxDeps tasks + 1) := by
            rw [Nat.sub_mul]
        _ = (depUniverse tasks \ visited).card * (maxDeps tasks + 1) - (maxDeps tasks + 1) := by
            rw [Nat.one_mul]
    rw [h5]
    have h6 : maxDeps tasks + 1 ≤ (depUniverse tasks \ visited).card * (maxDeps tasks + 1) := by
      calc maxDeps tasks + 1 = 1 * (maxDeps tasks + 1) := by rw [Nat.one_mul]
        _ ≤ (depUniverse tasks \ visited).card * (maxDeps tasks + 1) :=
            Nat.mul_le_mul_right _ hpos
    omega
  · have hcard : (depUniverse tasks \ insert current visited).card
        ≤ (depUniverse tasks \ visited).card :=
      Finset.card_le_card (Finset.sdiff_subset_sdiff (Finset.Subset.refl _)
        (Finset.subset_insert _ _))
    simp only [List.length_cons]
    have := Nat.mul_le_mul_right (maxDeps tasks + 1) hcard
    omega

/-- Errors surfaced by `validateDependencies`. -/
inductive DepError where
  | depMissing : ℕ → DepError
  | circular : DepError
deriving DecidableEq, Repr

/-- `validateDependencies(dependencies, excludeTaskId?)`: existence check in
    list order first, then (only with an exclude id) the BFS cycle check. -/
def TaskService.validateDependencies (tasks : List Task) (dependencies : List ℕ)
    (excludeTaskId : Option ℕ) : Except DepError Unit :=
  match dependencies.find? (fun depId => (getTaskIn tasks depId).isNone) with
  | some d => .error (.depMissing d)
  | none =>
    match excludeTaskId with
    | some ex => if bfsCheck tasks ex ∅ dependencies then .error .circular else .ok ()
    | none => .ok ()

-- ===== Daily planner (src/planner.ts) =====

namespace DailyPlanner

/-- A time slot in minutes since midnight; `stop` is the source's `end`
    field (a Lean keyword). -/
structure Slot where
  start : ℤ
  stop : ℤ
deriving DecidableEq, Repr

structure ScheduledTask where
  task : TaskService.TaskWithPriority
  slot : Slot
  estimateMinutes : ℤ
  isDefaultEstimate : Bool
deriving DecidableEq, Repr

structure UnscheduledTask where
  task : TaskService.TaskWithPriority
  reason : String
deriving DecidableEq, Repr

structure DailyPlan where
  date : ℤ
  workHours : Slot
  scheduled : List ScheduledTask
  unscheduled : List UnscheduledTask
  totalScheduledMinutes : ℤ
  remainingMinutes : ℤ
deriving DecidableEq, Repr

structure PlannerConfig where
  workHoursStart : HHMM
  workHoursEnd : HHMM
  defaultEstimateMinutes : ℤ
deriving DecidableEq, Repr

/-- The planner's `DEFAULT_CONFIG`. -/
def DEFAULT_CONFIG : PlannerConfig :=
  { workHoursStart := ⟨8, 0⟩, workHoursEnd := ⟨17, 0⟩, defaultEstimateMinutes := 15 }

/-- `rangeIntersection(start1, end1, start2, end2)`. -/
def rangeIntersection (start1 end1 start2 end2 : ℤ) : Option Slot :=
  if max start1 start2 ≥ min end1 end2 then none
  else some ⟨max start1 start2, min end1 end2⟩

/-- Comparator `(a, b) => a.start - b.start` used to keep slots sorted. -/
def slotStartLe (a b : Slot) : Bool := decide (a.start ≤ b.start)

/-- The `for` loop over adjacent pairs of sorted used slots. -/
def scanGapsBetween (allowedStart allowedEnd durationMinutes : ℤ) : List Slot → Option Slot
  | a :: b :: rest =>
    if min b.start allowedEnd - max a.stop allowedStart ≥ durationMinutes then
      some ⟨max a.stop allowedStart, max a.stop allowedStart + durationMinutes⟩
    else scanGapsBetween allowedStart allowedEnd durationMinutes (b :: rest)
  | _ => none

/-- `findAvailableSlot(usedSlots, allowedStart, allowedEnd, durationMinutes)`:
    first gap before the earliest used slot, then gaps between consecutive
    used slots, then the gap after the last one. -/
def findAvailableSlot (usedSlots : List Slot) (allowedStart allowedEnd durationMinutes : ℤ) :
    Option Slot :=
  match usedSlots.mergeSort slotStartLe with
  | [] =>
    if allowedEnd - allowedStart ≥ durationMinutes then
      some ⟨allowedStart, allowedStart + durationMinutes⟩
    else none
  | first :: rest =>
    if first.start > allowedStart ∧ min first.start allowedEnd - allowedStart ≥ durationMinutes then
      some ⟨allowedStart, allowedStart + durationMinutes⟩
    else
      match scanGapsBetween allowedStart allowedEnd durationMinutes (first :: rest) with
      | some s => some s
      | none =>
        if ((first :: rest).getLast (List.cons_ne_nil first rest)).stop < allowedEnd ∧
            allowedEnd - max ((first :: rest).getLast (List.cons_ne_nil first rest)).stop allowedStart
              ≥ durationMinutes then
          some ⟨max ((first :: rest).getLast (List.cons_ne_nil first rest)).stop allowedStart,
                max ((first :: rest).getLast (List.cons_ne_nil first rest)).stop allowedStart
                  + durationMinutes⟩
        else none

/-- One task's predicate inside `filterActionable`. -/
def actionableKeep (task : TaskService.TaskWithPriority) (date : ℤ) : Bool :=
  if task.priority = 0 then false
  else if (match task.task.deadline with
    | some dl => decide (startOfDayMs dl ≤ startOfDayMs date)
    | none => false) then true
  else if (match task.task.next_due_at with
    | some nd => decide (startOfDayMs nd ≤ startOfDayMs date)
    | none => false) then true
  else if task.task.window_start.isSome && task.task.window_end.isSome then true
  else decide (task.priority > 0.3)

/-- `filterActionable(tasks, date)`. -/
def filterActionable (tasks : List TaskService.TaskWithPriority) (date : ℤ) :
    List TaskService.TaskWithPriority :=
  tasks.filter (fun task => actionableKeep task date)

/-- JS `!task.estimate_minutes`: true when absent or 0 (number truthiness). -/
def isDefaultEstimateOf (est : Option ℤ) : Bool :=
  match est with
  | some n => n == 0
  | none => true

/-- Mutable state of the scheduling loop. -/
structure LoopState where
  usedSlots : List Slot
  scheduled : List ScheduledTask
  unscheduled : List UnscheduledTask
deriving DecidableEq, Repr

/-- The greedy first-fit scheduling loop of `planDay` (`includeTimeBlocks`
    path), over the actionable tasks in priority order. -/
def scheduleLoop (config : PlannerConfig) (workStart workEnd : ℤ) (limit : ℕ) :
    List TaskService.TaskWithPriority → LoopState → LoopState
  | [], st => st
  | task :: rest, st =>
    if st.scheduled.length ≥ limit then st
    else
      match (match task.task.window_start, task.task.window_end with
             | some ws, some we =>
               rangeIntersection workStart workEnd (parseTime ws) (parseTime we)
             | _, _ => some ⟨workStart, workEnd⟩) with
      | none =>
        scheduleLoop config workStart workEnd limit rest
          { st with unscheduled := st.unscheduled ++ [⟨task, "window outside work hours"⟩] }
      | some allowed =>
        match findAvailableSlot st.usedSlots allowed.start allowed.stop
            (task.task.estimate_minutes.getD config.defaultEstimateMinutes) with
        | some slot =>
          scheduleLoop config workStart workEnd limit rest
            { usedSlots := (st.usedSlots ++ [slot]).mergeSort slotStartLe,
              scheduled := st.scheduled ++
                [⟨task, slot, task.task.estimate_minutes.getD config.defaultEstimateMinutes,
                  isDefaultEstimateOf task.task.estimate_minutes⟩],
              unscheduled := st.unscheduled }
        | none =>
          scheduleLoop config workStart workEnd limit rest
            { st with unscheduled := st.unscheduled ++ [⟨task, "does not fit"⟩] }

/-- The priority-evaluation instant of `planDay`:
    `hour = max(workStartHour, 9)`, `minute = workStartMinute` on `date`. -/
def priorityInstant (config : PlannerConfig) (date : ℤ) : ℤ :=
  startOfDayMs date + max (config.workHoursStart.h : ℤ) 9 * 3600000 +
    (config.workHoursStart.m : ℤ) * 60000

/-- `planDay(taskService, date, { limit, includeTimeBlocks })`. -/
def planDay (db : Database) (pow : ℚ → ℚ → ℚ) (config : PlannerConfig) (date : ℤ)
    (limit : ℕ) (includeTimeBlocks : Bool) (wallClock : ℤ) : DailyPlan :=
  let tasks := TaskService.getByPriority db pow (some (limit * 2))
    (priorityInstant config date) wallClock
  let actionable := filterActionable tasks date
  let workStart := parseTime config.workHoursStart
  let workEnd := parseTime config.workHoursEnd
  if includeTimeBlocks = false then
    let scheduled := (actionable.take limit).map (fun task =>
      ({ task := task, slot := ⟨workStart, workEnd⟩,
         estimateMinutes := task.task.estimate_minutes.getD config.defaultEstimateMinutes,
         isDefaultEstimate := isDefaultEstimateOf task.task.estimate_minutes } : ScheduledTask))
    { date := date, workHours := ⟨workStart, workEnd⟩, scheduled := scheduled,
      unscheduled := [],
      totalScheduledMinutes := List.foldl (fun acc s => acc + s.estimateMinutes) 0 scheduled,
      remainingMinutes := (workEnd - workStart) -
        List.foldl (fun acc s => acc + s.estimateMinutes) 0 scheduled }
  else
    let st := scheduleLoop config workStart workEnd limit actionable ⟨[], [], []⟩
    { date := date, workHours := ⟨workStart, workEnd⟩, scheduled := st.scheduled,
      unscheduled := st.unscheduled,
      totalScheduledMinutes := List.foldl (fun acc s => acc + s.estimateMinutes) 0 st.scheduled,
      remainingMinutes := (workEnd - workStart) -
        List.foldl (fun acc s => acc + s.estimateMinutes) 0 st.scheduled }

end DailyPlanner

-- ===== Reference (spec-side) definitions for refinement claims =====

/-- Reference accumulator value following the spec text (§4.2): the expected
    interval table D, the calendar-mode three cases on Δ = (next_due − t) in
    days, and the completion-mode threshold table on r = days_since_last / D
    (last_completed taken as t − D days when null).  The spec's "else 7" row
    of the D table is unreachable for the four declared recurrence types;
    a missing `interval`/`unit` takes the source defaults (1, days). -/
def accumulatorSpecValue (c : AccumulatorCurve) (t : ℤ) : ℚ :=
  ((fun D =>
    if c.recurrence.mode = .calendar then
      ((fun delta =>
        if delta > D / 2 then 0.2
        else if delta < 0 then min 1.5 (1.0 + |delta| * c.buildupRate)
        else 0.2 + (1 - delta / (D / 2)) * 0.8) : ℚ → ℚ)
      (((c.nextDue - t : ℤ) : ℚ) / 86400000)
    else
      ((fun r =>
        if r < 0.5 then 0.1
        else if r < 0.8 then 0.3
        else if r < 1.0 then 0.6
        else if r < 1.2 then 0.9
        else 1.0) : ℚ → ℚ)
      ((((t : ℚ) - (match c.lastCompleted with
          | some lc => (lc : ℚ)
          | none => (t : ℚ) - D * 86400000)) / 86400000) / D)) : ℚ → ℚ)
  (match c.recurrence.type with
   | .daily => 1
   | .weekly => 7
   | .monthly => 30
   | .interval => ((c.recurrence.interval.getD 1 : ℕ) : ℚ) * unitDaysOf (c.recurrence.unit.getD .days))

-- ===== Claim theorems =====

/-- C2: for every recurrence pattern (and last-completed/next-due/buildup
    state) and every instant t, `AccumulatorCurve.calculate(t)` equals the
    two-mode reference definition from the spec. -/
theorem C2_accumulator_matches_spec (c : AccumulatorCurve) (t : ℤ) :
    c.calculate t = accumulatorSpecValue c t := by
  unfold AccumulatorCurve.calculate accumulatorSpecValue
    AccumulatorCurve.calculateCalendarMode AccumulatorCurve.calculateCompletionMode
    AccumulatorCurve.getExpectedIntervalDays
  rfl

/-- C5: for start < deadline and exponent k ∈ [1,5]: `LinearCurve.calculate`
    is 0 before start, the ratio inside (1.0 at the deadline), and the linear
    overdue formula after; `ExponentialCurve.calculate` is 0 before start,
    `pow` of the ratio inside (1.0 at the deadline whenever `pow 1 k = 1`,
    i.e. regardless of k for real exponentiation), and the same overdue
    formula, not raised to k, after. -/
theorem C5_linear_exponential_formulas (s e t : ℤ) (k : ℚ) (pow : ℚ → ℚ → ℚ)
    (hse : s < e) (hk : 1 ≤ k ∧ k ≤ 5) :
    (LinearCurve.calculate ⟨s, e⟩ t =
      if t < s then 0
      else if t > e then 1 + ((t - e : ℤ) : ℚ) / ((e - s : ℤ) : ℚ)
      else ((t - s : ℤ) : ℚ) / ((e - s : ℤ) : ℚ)) ∧
    LinearCurve.calculate ⟨s, e⟩ e = 1 ∧
    (ExponentialCurve.calculate pow ⟨s, e, k⟩ t =
      if t < s then 0
      else if t > e then 1 + ((t - e : ℤ) : ℚ) / ((e - s : ℤ) : ℚ)
      else pow (((t - s : ℤ) : ℚ) / ((e - s : ℤ) : ℚ)) k) ∧
    (pow 1 k = 1 → ExponentialCurve.calculate pow ⟨s, e, k⟩ e = 1) := by
  have hnz : ((e - s : ℤ) : ℚ) ≠ 0 := by
    rw [Int.cast_ne_zero]
    omega
  have hself : ((e - s : ℤ) : ℚ) / ((e - s : ℤ) : ℚ) = 1 := div_self hnz
  refine ⟨rfl, ?_, rfl, ?_⟩
  · simp only [LinearCurve.calculate]
    rw [if_neg (by omega), if_neg (by omega)]
    exact hself
  · intro hpow
    simp only [ExponentialCurve.calculate]
    rw [if_neg (by omega), if_neg (by omega)]
    rw [hself]
    exact hpow

/-- Witness for C5 at s = 0, e = 10, t = 5, k = 2, pow = squaring. -/
theorem C5_witness :
    (0 : ℤ) < 10 ∧ ((1 : ℚ) ≤ 2 ∧ (2 : ℚ) ≤ 5) ∧
    LinearCurve.calculate ⟨0, 10⟩ 5 = ((5 - 0 : ℤ) : ℚ) / ((10 - 0 : ℤ) : ℚ) ∧
    LinearCurve.calculate ⟨0, 10⟩ 10 = 1 := by
  have h := C5_linear_exponential_formulas 0 10 5 2 (fun x _ => x * x)
    (by norm_num) (by norm_num)
  refine ⟨by norm_num, by norm_num, ?_, h.2.1⟩
  rw [h.1]
  norm_num

/-- C7 counterexample: the factory does not inject the owning task's
    recurrence pattern.  With `config = { type: accumulator }` (no
    `recurrence`) and an owning task that has a recurrence pattern,
    `CurveFactory.create` fails with the missing-field error instead of
    succeeding. -/
theorem C7_counterexample :
    CurveFactory.create { type := .accumulator } true
      (some { id := 1, curve_config := { type := .accumulator },
              recurrence_pattern := some { mode := .calendar, type := .weekly } }) 0
      = .error "Accumulator curve requires recurrence pattern" := by
  rw [CurveFactory.create]

/-- C7 (amended): for a config with type Accumulator, construction fails
    with the missing-field error exactly when the config's own `recurrence`
    field is absent — the owning task's pattern is never consulted for this
    check (injection happens at task creation, outside the factory).  When
    the config carries a pattern, the built curve uses the config's pattern,
    with `last_completed`/`next_due` taken from the task (`next_due`
    defaulting to the wall clock). -/
theorem C7_accumulator_requires_config_recurrence (config : CurveConfig) (hasChecker : Bool)
    (task : Option Task) (now : ℤ) (htype : config.type = .accumulator) :
    (config.recurrence = none →
      CurveFactory.create config hasChecker task now =
        .error "Accumulator curve requires recurrence pattern") ∧
    (∀ rec, config.recurrence = some rec →
      CurveFactory.create config hasChecker task now =
        .ok (.accumulator { recurrence := rec,
                            lastCompleted := task.bind Task.last_completed_at,
                            nextDue := (task.bind Task.next_due_at).getD now,
                            buildupRate := config.buildup_rate.getD 0.1 })) := by
  constructor
  · intro hrec
    rw [CurveFactory.create, htype, hrec]
  · intro rec hrec
    rw [CurveFactory.create, htype, hrec]

/-- Witness for the amended C7 at a concrete accumulator config. -/
theorem C7_amended_witness :
    ({ type := .accumulator,
       recurrence := some { mode := .calendar, type := .weekly } } : CurveConfig).type
      = .accumulator ∧
    CurveFactory.create
      { type := .accumulator, recurrence := some { mode := .calendar, type := .weekly } }
      true none 0 =
      .ok (.accumulator { recurrence := { mode := .calendar, type := .weekly },
                          lastCompleted := none, nextDue := 0, buildupRate := 0.1 }) :=
  ⟨rfl, (C7_accumulator_requires_config_recurrence _ true none 0 rfl).2 _ rfl⟩

/-- C10: `getByPriority` with limit 0 hits the JS-falsy branch: it returns
    the same full result as an absent limit — every open/in-progress task
    with its computed priority, sorted by priority descending, with no
    truncation. -/
theorem C10_zero_limit_returns_all (db : Database) (pow : ℚ → ℚ → ℚ) (now wallClock : ℤ) :
    TaskService.getByPriority db pow (some 0) now wallClock =
      TaskService.getByPriority db pow none now wallClock ∧
    (TaskService.getByPriority db pow (some 0) now wallClock).length =
      (db.tasks.filter TaskService.isOpenOrInProgress).length ∧
    List.Pairwise (fun a b => b.priority ≤ a.priority)
      (TaskService.getByPriority db pow (some 0) now wallClock) := by
  refine ⟨by unfold TaskService.getByPriority; norm_num, ?_, ?_⟩
  · unfold TaskService.getByPriority
    norm_num [List.length_mergeSort]
  · unfold TaskService.getByPriority
    norm_num
    have hs := @List.sorted_mergeSort _ TaskService.priorityDescLe
      (fun a b c hab hbc => by
        simp only [TaskService.priorityDescLe, decide_eq_true_eq] at *
        exact le_trans hbc hab)
      (fun a b => by
        simp only [TaskService.priorityDescLe]
        rcases le_total a.priority b.priority with h | h
        · simp [h]
        · simp [h])
      ((db.tasks.filter TaskService.isOpenOrInProgress).map
        (fun t => TaskService.TaskWithPriority.mk t
          (TaskService.calculateTaskPriority db.tasks pow t now wallClock)))
    exact hs.imp (fun h => by
      simpa [TaskService.priorityDescLe, decide_eq_true_eq] using h)

-- ===== C3: task priority evaluator vs spec composition =====

/-- Spec §4.1 `in_window(now_minutes, start, end)`: inclusive bounds, with
    the midnight-crossing case when start > end. -/
def spec_in_window (nowMinutes s e : ℤ) : Bool :=
  if s ≤ e then decide (s ≤ nowMinutes) && decide (nowMinutes ≤ e)
  else decide (nowMinutes ≥ s) || decide (nowMinutes ≤ e)

/-- Spec §4.5 `all_complete(deps)`: every dep resolves AND every resolved
    dep has status Completed. -/
def spec_all_complete (tasks : List Task) (deps : List ℕ) : Bool :=
  deps.all (fun d => (getTaskIn tasks d).isSome) &&
  deps.all (fun d =>
    match getTaskIn tasks d with
    | some dt => dt.status == .Completed
    | none => true)

/-- Spec §4.6 step 2 guard: the task has a window and `in_window` is false. -/
def spec_has_window_outside (task : Task) (t : ℤ) : Bool :=
  match task.window_start, task.window_end with
  | some ws, some we =>
    !(spec_in_window (jsGetHours t * 60 + jsGetMinutes t) (parseTime ws) (parseTime we))
  | _, _ => false

/-- Spec §4.6 step 3 fallback: a synthetic linear curve from `created_at` to
    `deadline` (or `created_at + 7 days`). -/
def syntheticLinear (task : Task) (t : ℤ) : ℚ :=
  LinearCurve.calculate
    ⟨task.created_at, task.deadline.getD (task.created_at + 7 * 86400000)⟩ t

/-- Spec §4.6 steps 1-3: blocked → 0, outside window → 0, otherwise the
    curve built via the factory evaluated at `t`, with the synthetic linear
    fallback exactly when construction fails. -/
def specTaskPriority (tasks : List Task) (pow : ℚ → ℚ → ℚ) (task : Task)
    (t wallClock : ℤ) : ℚ :=
  if task.dependencies ≠ [] ∧ ¬ spec_all_complete tasks task.dependencies then 0
  else if spec_has_window_outside task t then 0
  else
    match CurveFactory.create task.curve_config true (some task) wallClock with
    | .ok curve => curve.eval tasks pow t
    | .error _ => syntheticLinear task t

theorem spec_all_complete_eq (tasks : List Task) (deps : List ℕ) :
    spec_all_complete tasks deps = allDependenciesComplete tasks deps := by
  unfold spec_all_complete allDependenciesComplete
  induction deps with
  | nil => rfl
  | cons d rest ih =>
    simp only [List.all_cons]
    rw [← ih]
    rcases hg : getTaskIn tasks d with _ | dt
    · simp [hg]
    · simp only [hg, Option.isSome_some, Bool.true_and]
      cases h1 : rest.all (fun d => (getTaskIn tasks d).isSome) <;>
        cases h2 : dt.status == TaskStatus.Completed <;> simp [h1, h2]

theorem isInTimeWindow_eq_spec (t : ℤ) (ws we : HHMM) :
    TaskService.isInTimeWindow t ws we =
      spec_in_window (jsGetHours t * 60 + jsGetMinutes t) (parseTime ws) (parseTime we) := by
  unfold TaskService.isInTimeWindow spec_in_window
  rcases le_or_lt (parseTime ws) (parseTime we) with h | h
  · rw [if_neg (by omega), if_pos h]
  · rw [if_pos h, if_neg (by omega)]

theorem outsideWindow_eq_spec (task : Task) (t : ℤ) :
    TaskService.outsideWindow task t = spec_has_window_outside task t := by
  unfold TaskService.outsideWindow spec_has_window_outside
  rcases task.window_start with _ | ws <;> rcases task.window_end with _ | we <;>
    simp [isInTimeWindow_eq_spec]

theorem calculateLinearPriority_eq_synthetic (task : Task) (t : ℤ) :
    TaskService.calculateLinearPriority task t = syntheticLinear task t := rfl

/-- C3: for every task and instant, `calculateTaskPriority` equals the
    spec's three-step composition: 0 when dependencies are non-empty and not
    all complete; else 0 when the task has a window not containing t
    (inclusive, midnight-crossing aware); else the factory-built curve
    evaluated at t, falling back to the synthetic linear curve exactly when
    curve construction fails (the only swallowed error: every other
    operation of the evaluator is total). -/
theorem C3_priority_evaluator_matches_spec (tasks : List Task) (pow : ℚ → ℚ → ℚ)
    (task : Task) (t wallClock : ℤ) :
    TaskService.calculateTaskPriority tasks pow task t wallClock =
      specTaskPriority tasks pow task t wallClock := by
  unfold TaskService.calculateTaskPriority specTaskPriority
  rw [spec_all_complete_eq, outsideWindow_eq_spec]
  rcases hd : task.dependencies with _ | ⟨a, l⟩ <;>
    rcases hA : allDependenciesComplete tasks task.dependencies <;>
      rcases hB : spec_has_window_outside task t <;>
        rcases hcreate : CurveFactory.create task.curve_config true (some task) wallClock
          with e | c <;>
          simp [hd, hA, hB, hcreate, calculateLinearPriority_eq_synthetic]

-- ===== Next-due strictness and search characterization =====

theorem startOfDayMs_bounds (t : ℤ) : startOfDayMs t ≤ t ∧ t < startOfDayMs t + msPerDay := by
  unfold startOfDayMs msPerDay
  omega

theorem jsGetDay_bounds (t : ℤ) : 0 ≤ jsGetDay t ∧ jsGetDay t < 7 := by
  unfold jsGetDay dayNumber msPerDay
  omega

theorem weeklyMultiSearch_ge : ∀ (fuel : ℕ) (l : List (Fin 7)) (next : ℤ),
    next ≤ TaskService.weeklyMultiSearch l next fuel := by
  intro fuel
  induction fuel with
  | zero => intro l next; exact le_refl _
  | succ n ih =>
    intro l next
    unfold TaskService.weeklyMultiSearch
    split
    · exact le_refl _
    · have h1 := ih l (next + msPerDay)
      have h2 : (0:ℤ) < msPerDay := by unfold msPerDay; norm_num
      omega

theorem weeklyMultiSearch_finds (l : List (Fin 7)) : ∀ (fuel : ℕ) (next : ℤ),
    (∃ i : ℕ, i < fuel ∧
      (l.map (fun d => (d.val : ℤ))).contains (jsGetDay (next + (i : ℤ) * msPerDay)) = true) →
    ∃ i : ℕ, i < fuel ∧
      TaskService.weeklyMultiSearch l next fuel = next + (i : ℤ) * msPerDay ∧
      (l.map (fun d => (d.val : ℤ))).contains (jsGetDay (next + (i : ℤ) * msPerDay)) = true := by
  intro fuel
  induction fuel with
  | zero =>
    rintro next ⟨i, hi, _⟩
    omega
  | succ n ih =>
    rintro next ⟨i, hi, hc⟩
    unfold TaskService.weeklyMultiSearch
    by_cases h0 : (l.map (fun d => (d.val : ℤ))).contains (jsGetDay next) = true
    · rw [if_pos h0]
      have h00 : next + ((0 : ℕ) : ℤ) * msPerDay = next := by push_cast; ring
      refine ⟨0, by omega, by rw [h00], ?_⟩
      rw [h00]
      exact h0
    · rw [if_neg h0]
      have h00 : next + ((0 : ℕ) : ℤ) * msPerDay = next := by push_cast; ring
      have hi0 : i ≠ 0 := by
        rintro rfl
        apply h0
        rw [h00] at hc
        exact hc
      have harg : next + msPerDay + ((i - 1 : ℕ) : ℤ) * msPerDay = next + (i : ℤ) * msPerDay := by
        have : ((i - 1 : ℕ) : ℤ) = (i : ℤ) - 1 := by omega
        rw [this]
        ring
      obtain ⟨j, hj, hjeq, hjc⟩ := ih (next + msPerDay)
        ⟨i - 1, by omega, by rw [harg]; exact hc⟩
      have harg2 : next + msPerDay + (j : ℤ) * msPerDay = next + ((j + 1 : ℕ) : ℤ) * msPerDay := by
        push_cast
        ring
      refine ⟨j + 1, by omega, ?_, ?_⟩
      · rw [hjeq, harg2]
      · rw [← harg2]
        exact hjc

theorem weekday_coverage (start : ℤ) (target : Fin 7) :
    ∃ i : ℕ, i < 7 ∧ jsGetDay (start + (i : ℤ) * msPerDay) = (target.val : ℤ) := by
  have ht := target.isLt
  refine ⟨(((target.val : ℤ) - jsGetDay start) % 7).toNat, ?_, ?_⟩
  · unfold jsGetDay dayNumber msPerDay
    omega
  · unfold jsGetDay dayNumber msPerDay at *
    omega

theorem intervalSearch_spec (stepMs now : ℤ) (hstep : 0 < stepMs) : ∀ next : ℤ,
    ∃ k : ℕ, TaskService.intervalSearch stepMs now next = next + (k : ℤ) * stepMs ∧
      now < next + (k : ℤ) * stepMs ∧
      (TaskService.intervalSearch stepMs now next = next ∨
        TaskService.intervalSearch stepMs now next - stepMs ≤ now) := by
  have H : ∀ (fuelN : ℕ) (next : ℤ), (now + stepMs - next).toNat = fuelN →
      ∃ k : ℕ, TaskService.intervalSearch stepMs now next = next + (k : ℤ) * stepMs ∧
        now < next + (k : ℤ) * stepMs ∧
        (TaskService.intervalSearch stepMs now next = next ∨
          TaskService.intervalSearch stepMs now next - stepMs ≤ now) := by
    intro fuelN
    induction fuelN using Nat.strong_induction_on with
    | _ fuelN ih =>
      intro next hfn
      unfold TaskService.intervalSearch
      rw [dif_pos hstep]
      by_cases hle : next ≤ now
      · rw [if_pos hle]
        obtain ⟨k, hk1, hk2, hk3⟩ :=
          ih (now + stepMs - (next + stepMs)).toNat (by omega) (next + stepMs) rfl
        refine ⟨k + 1, ?_, by push_cast at hk2 ⊢; linarith [hk2], ?_⟩
        · rw [hk1]
          push_cast
          ring
        · right
          rcases hk3 with h | h
          · rw [h]
            omega
          · exact h
      · rw [if_neg hle]
        exact ⟨0, by push_cast; ring_nf, by push_cast; omega, Or.inl rfl⟩
  intro next
  exact H (now + stepMs - next).toNat next rfl

theorem completionIntervalDays_pos (p : RecurrencePattern) :
    1 ≤ TaskService.completionIntervalDays p := by
  unfold TaskService.completionIntervalDays
  split
  · omega
  split
  · omega
  split
  · omega
  split
  · rename_i h
    rcases hn : p.interval with _ | n
    · rw [hn] at h
      simp [intervalTruthy] at h
    · rw [hn] at h
      have hn1 : 1 ≤ n := by
        have := h.2.1
        simp [intervalTruthy] at this
        omega
      simp only [hn, Option.getD_some]
      rcases p.unit.getD .days <;> simp [unitDaysInt] <;> omega
  · omega

theorem startOfDayMs_mono {t s : ℤ} (h : t ≤ s) : startOfDayMs t ≤ startOfDayMs s := by
  unfold startOfDayMs msPerDay
  omega

/-- Strictness of the next-due computation: for a task whose pattern's
    interval field (when present) is at least 1, the computed next-due
    instant is strictly after the completion instant. -/
theorem calculateNextDue_gt (task : Task) (completedAt : ℤ) (p : RecurrencePattern)
    (hp : task.recurrence_pattern = some p) :
    ∃ nd, TaskService.calculateNextDue task completedAt = some nd ∧ completedAt < nd := by
  unfold TaskService.calculateNextDue
  simp only [hp]
  by_cases hmode : p.mode = .completion
  · rw [if_pos hmode]
    refine ⟨_, rfl, ?_⟩
    have h1 := completionIntervalDays_pos p
    generalize TaskService.completionIntervalDays p = D at *
    unfold msPerDay
    nlinarith
  · rw [if_neg hmode]
    split
    · exact ⟨_, rfl, by unfold startOfDayMs msPerDay; omega⟩
    split
    · refine ⟨_, rfl, ?_⟩
      have h1 := weeklyMultiSearch_ge 7 (p.daysOfWeek.getD []) (startOfDayMs (completedAt + msPerDay))
      have h2 : completedAt < startOfDayMs (completedAt + msPerDay) := by
        unfold startOfDayMs msPerDay
        omega
      omega
    split
    · refine ⟨_, rfl, ?_⟩
      have hcur := jsGetDay_bounds completedAt
      have hdw := (p.dayOfWeek.getD 0).isLt
      split
      · unfold startOfDayMs msPerDay jsGetDay dayNumber at *
        omega
      · unfold startOfDayMs msPerDay jsGetDay dayNumber at *
        omega
    split
    · exact ⟨_, rfl, jsNextMonthStartOfDay_gt completedAt⟩
    split
    · rename_i h
      rcases hn : p.interval with _ | n
      · rw [hn] at h
        simp [intervalTruthy] at h
      · have hn1 : 1 ≤ n := by
          have := h.2.1
          rw [hn] at this
          simp [intervalTruthy] at this
          omega
        have hstep : 0 < ((n : ℕ) : ℤ) * unitDaysInt (p.unit.getD .days) * msPerDay := by
          rcases p.unit.getD .days <;> simp [unitDaysInt, msPerDay] <;> positivity
        obtain ⟨k, hk1, hk2, hk3⟩ := intervalSearch_spec _ completedAt hstep
          (p.anchor.getD task.created_at)
        refine ⟨_, rfl, ?_⟩
        simp only [Option.getD_some]
        rw [hk1]
        exact hk2
    · exact ⟨_, rfl, by unfold msPerDay; omega⟩

theorem getTaskIn_updateTaskIn (tasks : List Task) (id : ℕ) (f : Task → Task)
    (hid : ∀ t : Task, (f t).id = t.id) :
    getTaskIn (TaskService.updateTaskIn tasks id f) id = (getTaskIn tasks id).map f := by
  unfold getTaskIn TaskService.updateTaskIn
  induction tasks with
  | nil => rfl
  | cons a l ih =>
    simp only [List.map_cons]
    rcases ha : a.id == id with _ | _
    · rw [if_neg (by simp_all), List.find?_cons_of_neg _ (by simp_all),
        List.find?_cons_of_neg _ (by simp_all)]
      exact ih
    · rw [if_pos (by simp_all), List.find?_cons_of_pos _ (by simp [hid, ha]),
        List.find?_cons_of_pos _ (by simp_all)]
      rfl

theorem getTaskIn_update_last (tasks : List Task) (id : ℕ) (c : ℤ) :
    getTaskIn (TaskService.updateTaskIn tasks id
        (fun t => { t with last_completed_at := some c })) id =
      (getTaskIn tasks id).map (fun t => { t with last_completed_at := some c }) :=
  getTaskIn_updateTaskIn _ _ _ (fun _ => rfl)

theorem getTaskIn_update_next (tasks : List Task) (id : ℕ) (nd : ℤ) :
    getTaskIn (TaskService.updateTaskIn tasks id
        (fun t => { t with next_due_at := some nd })) id =
      (getTaskIn tasks id).map (fun t => { t with next_due_at := some nd }) :=
  getTaskIn_updateTaskIn _ _ _ (fun _ => rfl)

theorem getTaskIn_update_status (tasks : List Task) (id : ℕ) (st : TaskStatus) :
    getTaskIn (TaskService.updateTaskIn tasks id
        (fun t => { t with status := st })) id =
      (getTaskIn tasks id).map (fun t => { t with status := st }) :=
  getTaskIn_updateTaskIn _ _ _ (fun _ => rfl)

/-- C1: `complete(id, completedAt)` on an existing task records the
    completion and: for a recurring task (interval ≥ 1 when present, which
    the u32 data model plus JS truthiness guarantee) leaves status Open,
    `last_completed_at = completedAt` and `next_due_at` strictly after
    `completedAt`; for a non-recurring task sets status Completed and
    `last_completed_at = completedAt`. -/
theorem C1_complete_contract (db : Database) (id : ℕ) (completedAt : ℤ) (task : Task)
    (hget : db.getTask id = some task)
    (hint : ∀ p, task.recurrence_pattern = some p → ∀ n, p.interval = some n → 1 ≤ n) :
    ∃ db', TaskService.complete db id completedAt = some db' ∧
      ∃ task', db'.getTask id = some task' ∧
        task'.last_completed_at = some completedAt ∧
        (∀ p, task.recurrence_pattern = some p →
          task'.status = .Open ∧ ∃ nd, task'.next_due_at = some nd ∧ completedAt < nd) ∧
        (task.recurrence_pattern = none → task'.status = .Completed) := by
  have hgetIn : getTaskIn db.tasks id = some task := hget
  unfold TaskService.complete
  rcases hpat : task.recurrence_pattern with _ | p
  · have hcd : TaskService.calculateNextDue task completedAt = none := by
      unfold TaskService.calculateNextDue
      rw [hpat]
    simp only [hget, hcd]
    refine ⟨_, rfl, ?_⟩
    refine ⟨{ task with last_completed_at := some completedAt, status := .Completed }, ?_, rfl, ?_, fun _ => rfl⟩
    · show getTaskIn _ id = _
      rw [getTaskIn_update_status, getTaskIn_update_last, hgetIn]
      rfl
    · intro q hq
      exact Option.noConfusion hq
  · obtain ⟨nd, hcd, hgt⟩ := calculateNextDue_gt task completedAt p hpat
    simp only [hget, hcd]
    refine ⟨_, rfl, ?_⟩
    refine ⟨{ task with last_completed_at := some completedAt, next_due_at := some nd, status := .Open }, ?_, rfl, fun q hq => ⟨rfl, nd, rfl, hgt⟩, ?_⟩
    · show getTaskIn _ id = _
      rw [getTaskIn_update_status, getTaskIn_update_next, getTaskIn_update_last, hgetIn]
      rfl
    · intro hnone
      exact Option.noConfusion hnone

/-- Witness for C1: a concrete store with one recurring (daily calendar) and
    one plain task. -/
theorem C1_witness :
    (({ tasks := [{ id := 1, curve_config := { type := .linear },
                    recurrence_pattern := some { mode := .calendar, type := .daily },
                    status := .Open, created_at := 0 }],
        completions := [] } : Database).getTask 1).isSome = true ∧
    ∃ db', TaskService.complete
        { tasks := [{ id := 1, curve_config := { type := .linear },
                      recurrence_pattern := some { mode := .calendar, type := .daily },
                      status := .Open, created_at := 0 }],
          completions := [] } 1 (5 * 3600000) = some db' ∧
      ∃ task', db'.getTask 1 = some task' ∧
        task'.last_completed_at = some (5 * 3600000) ∧
        (∀ p, (some { mode := .calendar, type := .daily } : Option RecurrencePattern) = some p →
          task'.status = .Open ∧ ∃ nd, task'.next_due_at = some nd ∧ (5 * 3600000 : ℤ) < nd) := by
  constructor
  · rfl
  · obtain ⟨db', h1, task', h2, h3, h4, h5⟩ :=
      C1_complete_contract
        { tasks := [{ id := 1, curve_config := { type := .linear },
                      recurrence_pattern := some { mode := .calendar, type := .daily },
                      status := .Open, created_at := 0 }],
          completions := [] } 1 (5 * 3600000)
        { id := 1, curve_config := { type := .linear },
          recurrence_pattern := some { mode := .calendar, type := .daily },
          status := .Open, created_at := 0 }
        (by rfl) (by intro p hp n hn; cases hp; cases hn)
    exact ⟨db', h1, task', h2, h3, h4⟩

/-- C9: the next-due computation terminates and reaches its target.  For a
    calendar Weekly pattern with a non-empty `days_of_week` set, the search
    yields a day strictly after `completed_at` whose weekday is in the set,
    within at most 7 one-day steps from the day after `completed_at`.  For a
    calendar Interval pattern with interval ≥ 1, the loop from the anchor
    (or task creation time) reaches, in finitely many steps k, the first
    multiple of the step strictly after `completed_at`. -/
theorem C9_nextdue_reaches (task : Task) (completedAt : ℤ) (p : RecurrencePattern)
    (hp : task.recurrence_pattern = some p) (hmode : p.mode = .calendar) :
    (∀ l, p.type = .weekly → p.daysOfWeek = some l → l ≠ [] →
      ∃ i : ℕ, i < 7 ∧
        TaskService.calculateNextDue task completedAt =
          some (startOfDayMs (completedAt + msPerDay) + (i : ℤ) * msPerDay) ∧
        jsGetDay (startOfDayMs (completedAt + msPerDay) + (i : ℤ) * msPerDay)
          ∈ l.map (fun d => (d.val : ℤ)) ∧
        completedAt < startOfDayMs (completedAt + msPerDay) + (i : ℤ) * msPerDay) ∧
    (∀ n u, p.type = .interval → p.interval = some n → 1 ≤ n → p.unit = some u →
      ∃ k : ℕ,
        TaskService.calculateNextDue task completedAt =
          some (p.anchor.getD task.created_at +
            (k : ℤ) * ((n : ℤ) * unitDaysInt u * msPerDay)) ∧
        completedAt < p.anchor.getD task.created_at +
          (k : ℤ) * ((n : ℤ) * unitDaysInt u * msPerDay) ∧
        (k = 0 ∨ p.anchor.getD task.created_at +
          ((k : ℤ) - 1) * ((n : ℤ) * unitDaysInt u * msPerDay) ≤ completedAt)) := by
  constructor
  · intro l htype hl hne
    unfold TaskService.calculateNextDue
    simp only [hp]
    rw [if_neg (by simp [hmode]), if_neg (by simp [htype]),
      if_pos ⟨htype, by simp [hl]; exact List.length_pos.mpr hne⟩]
    simp only [hl, Option.getD_some]
    have hstart : completedAt < startOfDayMs (completedAt + msPerDay) := by
      unfold startOfDayMs msPerDay
      omega
    obtain ⟨target, htl⟩ := List.exists_mem_of_ne_nil l hne
    obtain ⟨i, hi7, hieq⟩ := weekday_coverage (startOfDayMs (completedAt + msPerDay)) target
    have hcont : (l.map (fun d => (d.val : ℤ))).contains
        (jsGetDay (startOfDayMs (completedAt + msPerDay) + (i : ℤ) * msPerDay)) = true := by
      rw [hieq]
      have hm : ((target.val : ℤ)) ∈ l.map (fun d => (d.val : ℤ)) :=
        List.mem_map_of_mem _ htl
      exact List.elem_eq_true_of_mem hm
    obtain ⟨j, hj7, hjeq, hjc⟩ := weeklyMultiSearch_finds l 7
      (startOfDayMs (completedAt + msPerDay)) ⟨i, hi7, hcont⟩
    refine ⟨j, hj7, by rw [hjeq], ?_, ?_⟩
    · have := List.mem_of_elem_eq_true hjc
      exact this
    · have hjm : (0:ℤ) ≤ (j : ℤ) * msPerDay := by
        have : (0:ℤ) < msPerDay := by unfold msPerDay; norm_num
        positivity
      omega
  · intro n u htype hn hn1 hu
    unfold TaskService.calculateNextDue
    simp only [hp]
    rw [if_neg (by simp [hmode]), if_neg (by simp [htype]), if_neg (by simp [htype]),
      if_neg (by simp [htype]), if_neg (by simp [htype]),
      if_pos ⟨htype, by simp [hn, intervalTruthy]; omega, by simp [hu]⟩]
    simp only [hn, hu, Option.getD_some]
    have hstep : 0 < ((n : ℕ) : ℤ) * unitDaysInt u * msPerDay := by
      rcases u <;> simp [unitDaysInt, msPerDay] <;> positivity
    obtain ⟨k, hk1, hk2, hk3⟩ := intervalSearch_spec _ completedAt hstep
      (p.anchor.getD task.created_at)
    refine ⟨k, by rw [hk1], hk2, ?_⟩
    rcases hk3 with h | h
    · left
      rw [hk1] at h
      by_contra hk0
      have hk1' : 1 ≤ (k : ℤ) := by omega
      nlinarith
    · right
      rw [hk1] at h
      linarith

/-- Witness for C9 with a weekly Monday-and-Thursday pattern and a 3-day
    interval pattern. -/
theorem C9_witness :
    (({ mode := .calendar, type := .weekly, daysOfWeek := some [1, 4] } :
        RecurrencePattern).mode = .calendar) ∧
    (∃ i : ℕ, i < 7 ∧
      TaskService.calculateNextDue
        { id := 1, curve_config := { type := .linear },
          recurrence_pattern :=
            some { mode := .calendar, type := .weekly, daysOfWeek := some [1, 4] } }
        19723 =
        some (startOfDayMs ((19723 : ℤ) + msPerDay) + (i : ℤ) * msPerDay) ∧
      jsGetDay (startOfDayMs ((19723 : ℤ) + msPerDay) + (i : ℤ) * msPerDay)
        ∈ ([1, 4] : List (Fin 7)).map (fun d => (d.val : ℤ)) ∧
      (19723 : ℤ) < startOfDayMs ((19723 : ℤ) + msPerDay) + (i : ℤ) * msPerDay) ∧
    (∃ k : ℕ,
      TaskService.calculateNextDue
        { id := 2, created_at := 10 * 86400000, curve_config := { type := .linear },
          recurrence_pattern :=
            some { mode := .calendar, type := .interval, interval := some 3,
                   unit := some .days } }
        (100 * 86400000) =
        some ((10 * 86400000 : ℤ) + (k : ℤ) * ((3 : ℤ) * unitDaysInt .days * msPerDay)) ∧
      (100 * 86400000 : ℤ) < (10 * 86400000 : ℤ) +
        (k : ℤ) * ((3 : ℤ) * unitDaysInt .days * msPerDay)) := by
  refine ⟨rfl, ?_, ?_⟩
  · exact (C9_nextdue_reaches _ 19723 _ rfl rfl).1 [1, 4] rfl rfl (by simp)
  · obtain ⟨k, h1, h2, h3⟩ := (C9_nextdue_reaches
      { id := 2, created_at := 10 * 86400000, curve_config := { type := .linear },
        recurrence_pattern :=
          some { mode := .calendar, type := .interval, interval := some 3,
                 unit := some .days } }
      (100 * 86400000) _ rfl rfl).2 3 .days rfl rfl (by norm_num) rfl
    exact ⟨k, h1, h2⟩

-- ===== C6: dependency validation =====

/-- Reachability from a set of start ids through the dependency edges
    (a task's id points to each id in its `dependencies`). -/
inductive ReachesP (tasks : List Task) (S : ℕ → Prop) : ℕ → Prop
  | root {x : ℕ} : S x → ReachesP tasks S x
  | step {y x : ℕ} {t : Task} : ReachesP tasks S y → getTaskIn tasks y = some t →
      x ∈ t.dependencies → ReachesP tasks S x

/-- Reachability from a list of proposed dependency ids: the transitive
    closure the spec's acyclicity check talks about. -/
def Reaches (tasks : List Task) (roots : List ℕ) (x : ℕ) : Prop :=
  ReachesP tasks (fun a => a ∈ roots) x

theorem ReachesP_mono {tasks : List Task} {S S' : ℕ → Prop} (hss : ∀ a, S a → S' a) :
    ∀ {x : ℕ}, ReachesP tasks S x → ReachesP tasks S' x := by
  intro x h
  induction h with
  | root hx => exact .root (hss _ hx)
  | step _ hg hd ih => exact .step ih hg hd

theorem bfsCheck_sound (tasks : List Task) (ex : ℕ) (roots : List ℕ) :
    ∀ (visited : Finset ℕ) (queue : List ℕ),
      (∀ q ∈ queue, Reaches tasks roots q) →
      bfsCheck tasks ex visited queue = true → Reaches tasks roots ex := by
  intro visited queue
  induction visited, queue using bfsCheck.induct tasks ex with
  | case1 visited =>
    intro _ hfalse
    rw [bfsCheck] at hfalse
    cases hfalse
  | case2 visited rest =>
    intro hq _
    exact hq ex (List.mem_cons_self _ _)
  | case3 visited current rest hne hmem ih =>
    intro hq hbfs
    rw [bfsCheck, if_neg hne, dif_pos hmem] at hbfs
    exact ih (fun q hqr => hq q (List.mem_cons_of_mem _ hqr)) hbfs
  | case4 visited current rest hne hmem t hg ih =>
    intro hq hbfs
    rw [bfsCheck, if_neg hne, dif_neg hmem, hg] at hbfs
    refine ih (fun q hqr => ?_) hbfs
    rcases List.mem_append.mp hqr with h | h
    · exact hq q (List.mem_cons_of_mem _ h)
    · exact .step (hq current (List.mem_cons_self _ _)) hg h
  | case5 visited current rest hne hmem hg ih =>
    intro hq hbfs
    rw [bfsCheck, if_neg hne, dif_neg hmem, hg] at hbfs
    exact ih (fun q hqr => hq q (List.mem_cons_of_mem _ hqr)) hbfs

/-- Everything the BFS has expanded stays expanded: each visited node's
    outgoing edges land in `visited` or in the pending queue. -/
def bfsClosed (tasks : List Task) (visited : Finset ℕ) (queue : List ℕ) : Prop :=
  ∀ v ∈ visited, ∀ t, getTaskIn tasks v = some t →
    ∀ d ∈ t.dependencies, d ∈ visited ∨ d ∈ queue

theorem reaches_closed_subset (tasks : List Task) (visited : Finset ℕ)
    (hcl : bfsClosed tasks visited []) :
    ∀ z, ReachesP tasks (fun a => a ∈ ([] : List ℕ) ∨ a ∈ visited) z → z ∈ visited := by
  intro z h
  induction h with
  | root hx =>
    rcases hx with h | h
    · cases h
    · exact h
  | step _ hg hd ih =>
    rcases hcl _ ih _ hg _ hd with h | h
    · exact h
    · cases h

theorem bfsCheck_complete_aux (tasks : List Task) (ex : ℕ) :
    ∀ (visited : Finset ℕ) (queue : List ℕ),
      bfsCheck tasks ex visited queue = false →
      ex ∉ visited →
      bfsClosed tasks visited queue →
      ∀ z, ReachesP tasks (fun a => a ∈ queue ∨ a ∈ visited) z → z ≠ ex := by
  intro visited queue
  induction visited, queue using bfsCheck.induct tasks ex with
  | case1 visited =>
    intro _ hex hcl z hz
    intro hzx
    apply hex
    rw [← hzx]
    exact reaches_closed_subset tasks visited hcl z hz
  | case2 visited rest =>
    intro hbfs
    rw [bfsCheck, if_pos rfl] at hbfs
    cases hbfs
  | case3 visited current rest hne hmem ih =>
    intro hbfs hex hcl z hz
    rw [bfsCheck, if_neg hne, dif_pos hmem] at hbfs
    refine ih hbfs hex ?_ z (ReachesP_mono ?_ hz)
    · intro v hv t hg d hd
      rcases hcl v hv t hg d hd with h | h
      · exact Or.inl h
      · rcases List.mem_cons.mp h with h1 | h1
        · exact Or.inl (h1 ▸ hmem)
        · exact Or.inr h1
    · intro a ha
      rcases ha with h | h
      · rcases List.mem_cons.mp h with h1 | h1
        · exact Or.inr (h1 ▸ hmem)
        · exact Or.inl h1
      · exact Or.inr h
  | case4 visited current rest hne hmem t hg ih =>
    intro hbfs hex hcl z hz
    rw [bfsCheck, if_neg hne, dif_neg hmem, hg] at hbfs
    refine ih hbfs ?_ ?_ z (ReachesP_mono ?_ hz)
    · intro hexin
      rcases Finset.mem_insert.mp hexin with h | h
      · exact hne h.symm
      · exact hex h
    · intro v hv t' hg' d hd
      rcases Finset.mem_insert.mp hv with h | h
      · subst h
        rw [hg] at hg'
        cases hg'
        exact Or.inr (List.mem_append.mpr (Or.inr hd))
      · rcases hcl v h t' hg' d hd with h1 | h1
        · exact Or.inl (Finset.mem_insert_of_mem h1)
        · rcases List.mem_cons.mp h1 with h2 | h2
          · exact Or.inl (h2 ▸ Finset.mem_insert_self _ _)
          · exact Or.inr (List.mem_append.mpr (Or.inl h2))
    · intro a ha
      rcases ha with h | h
      · rcases List.mem_cons.mp h with h1 | h1
        · exact Or.inr (h1 ▸ Finset.mem_insert_self _ _)
        · exact Or.inl (List.mem_append.mpr (Or.inl h1))
      · exact Or.inr (Finset.mem_insert_of_mem h)
  | case5 visited current rest hne hmem hg ih =>
    intro hbfs hex hcl z hz
    rw [bfsCheck, if_neg hne, dif_neg hmem, hg] at hbfs
    refine ih hbfs ?_ ?_ z (ReachesP_mono ?_ hz)
    · intro hexin
      rcases Finset.mem_insert.mp hexin with h | h
      · exact hne h.symm
      · exact hex h
    · intro v hv t' hg' d hd
      rcases Finset.mem_insert.mp hv with h | h
      · subst h
        rw [hg] at hg'
        cases hg'
      · rcases hcl v h t' hg' d hd with h1 | h1
        · exact Or.inl (Finset.mem_insert_of_mem h1)
        · rcases List.mem_cons.mp h1 with h2 | h2
          · exact Or.inl (h2 ▸ Finset.mem_insert_self _ _)
          · exact Or.inr h2
    · intro a ha
      rcases ha with h | h
      · rcases List.mem_cons.mp h with h1 | h1
        · exact Or.inr (h1 ▸ Finset.mem_insert_self _ _)
        · exact Or.inl h1
      · exact Or.inr (Finset.mem_insert_of_mem h)

theorem bfsCheck_iff_reaches (tasks : List Task) (ex : ℕ) (deps : List ℕ) :
    bfsCheck tasks ex ∅ deps = true ↔ Reaches tasks deps ex := by
  constructor
  · intro h
    exact bfsCheck_sound tasks ex deps ∅ deps (fun q hq => .root hq) h
  · intro h
    by_contra hfalse
    rw [Bool.not_eq_true] at hfalse
    refine bfsCheck_complete_aux tasks ex ∅ deps hfalse (Finset.not_mem_empty ex) ?_ ex ?_ rfl
    · intro v hv
      exact absurd hv (Finset.not_mem_empty v)
    · exact ReachesP_mono (fun a ha => Or.inl ha) h

/-- C6: `validateDependencies(deps, excludeTaskId = X)` fails with the
    dependency-missing error exactly when some id in `deps` does not resolve
    (this check runs first, with no condition on cycles); when all ids
    resolve it fails with the circular error exactly when X is reachable
    from `deps` through the transitive closure of the dependency graph; and
    it succeeds exactly otherwise. -/
theorem C6_validateDependencies_spec (tasks : List Task) (deps : List ℕ) (ex : ℕ) :
    ((∃ d, TaskService.validateDependencies tasks deps (some ex) =
        .error (.depMissing d)) ↔ ∃ d ∈ deps, getTaskIn tasks d = none) ∧
    ((∀ d ∈ deps, getTaskIn tasks d ≠ none) →
      (TaskService.validateDependencies tasks deps (some ex) = .error .circular ↔
        Reaches tasks deps ex)) ∧
    (TaskService.validateDependencies tasks deps (some ex) = .ok () ↔
      ((∀ d ∈ deps, getTaskIn tasks d ≠ none) ∧ ¬ Reaches tasks deps ex)) := by
  unfold TaskService.validateDependencies
  rcases hfind : deps.find? (fun d => (getTaskIn tasks d).isNone) with _ | d
  all_goals dsimp only
  · have hall : ∀ d ∈ deps, getTaskIn tasks d ≠ none := by
      intro d hd hnone
      have := List.find?_eq_none.mp hfind d hd
      simp [hnone] at this
    by_cases hbfs : bfsCheck tasks ex ∅ deps = true
    · rw [if_pos hbfs]
      refine ⟨?_, fun _ => ⟨fun _ => (bfsCheck_iff_reaches tasks ex deps).mp hbfs,
        fun _ => rfl⟩, ?_⟩
      · constructor
        · rintro ⟨d, hd⟩
          exact absurd hd (by simp)
        · rintro ⟨d, hd, hn⟩
          exact absurd hn (hall d hd)
      · constructor
        · intro h
          cases h
        · rintro ⟨_, hnr⟩
          exact absurd ((bfsCheck_iff_reaches tasks ex deps).mp hbfs) hnr
    · rw [if_neg hbfs]
      have hnr : ¬ Reaches tasks deps ex := fun hr =>
        hbfs ((bfsCheck_iff_reaches tasks ex deps).mpr hr)
      refine ⟨?_, fun _ => ⟨fun h => Except.noConfusion h, fun hr => absurd hr hnr⟩,
        ⟨fun _ => ⟨hall, hnr⟩, fun _ => rfl⟩⟩
      constructor
      · rintro ⟨d, hd⟩
        exact absurd hd (by simp)
      · rintro ⟨d, hd, hn⟩
        exact absurd hn (hall d hd)
  · have hdm : d ∈ deps ∧ getTaskIn tasks d = none := by
      constructor
      · exact List.mem_of_find?_eq_some hfind
      · have := List.find?_some hfind
        simpa using this
    refine ⟨⟨fun _ => ⟨d, hdm.1, hdm.2⟩, fun _ => ⟨d, rfl⟩⟩,
      fun hres => absurd hdm.2 (hres d hdm.1), ⟨fun h => Except.noConfusion h, ?_⟩⟩
    rintro ⟨hres, _⟩
    exact absurd hdm.2 (hres d hdm.1)

/-- The two-task store of the C6 witness: task 2 depends on task 1. -/
def c6Store : List Task :=
  [{ id := 1, dependencies := [2], curve_config := { type := .linear } },
   { id := 2, dependencies := [1], curve_config := { type := .linear } }]

/-- Witness for C6: proposing deps [2] for task 1, where task 2 depends on
    task 1, resolves and raises Circular. -/
theorem C6_witness :
    (∀ d ∈ [2], getTaskIn c6Store d ≠ none) ∧
    TaskService.validateDependencies c6Store [2] (some 1) = .error .circular := by
  have hres : ∀ d ∈ [2], getTaskIn c6Store d ≠ none := by
    intro d hd
    simp only [List.mem_singleton] at hd
    subst hd
    intro h
    cases h
  refine ⟨hres, ((C6_validateDependencies_spec c6Store [2] 1).2.1 hres).mpr ?_⟩
  have hstep := @ReachesP.step c6Store (fun a => a ∈ [2]) 2 1
    { id := 2, dependencies := [1], curve_config := { type := .linear } }
  exact hstep (.root (by simp)) rfl (by simp)

-- ===== C8: planner priority instant and exclusion =====

theorem mem_getByPriority (db : Database) (pow : ℚ → ℚ → ℚ) (limit : Option ℕ)
    (now wall : ℤ) (e : TaskService.TaskWithPriority)
    (he : e ∈ TaskService.getByPriority db pow limit now wall) :
    e.priority = TaskService.calculateTaskPriority db.tasks pow e.task now wall ∧
    e.task ∈ db.tasks := by
  unfold TaskService.getByPriority at he
  have hmem : e ∈ ((db.tasks.filter TaskService.isOpenOrInProgress).map
      (fun t => TaskService.TaskWithPriority.mk t
        (TaskService.calculateTaskPriority db.tasks pow t now wall))).mergeSort
      TaskService.priorityDescLe := by
    rcases limit with _ | n
    · exact he
    · dsimp only at he
      by_cases hn : n ≠ 0
      · rw [if_pos hn] at he
        exact List.take_subset _ _ he
      · rw [if_neg hn] at he
        exact he
  obtain ⟨t, ht, rfl⟩ := List.mem_map.mp (List.mem_mergeSort.mp hmem)
  exact ⟨rfl, List.mem_of_mem_filter ht⟩

theorem mem_filterActionable (ts : List TaskService.TaskWithPriority) (date : ℤ)
    (e : TaskService.TaskWithPriority) (he : e ∈ DailyPlanner.filterActionable ts date) :
    e ∈ ts ∧ e.priority ≠ 0 := by
  unfold DailyPlanner.filterActionable at he
  obtain ⟨hmem, hkeep⟩ := List.mem_filter.mp he
  refine ⟨hmem, ?_⟩
  intro hp
  unfold DailyPlanner.actionableKeep at hkeep
  rw [if_pos hp] at hkeep
  cases hkeep

theorem scheduleLoop_mem (config : DailyPlanner.PlannerConfig) (ws we : ℤ) (limit : ℕ) :
    ∀ (ts : List TaskService.TaskWithPriority) (st : DailyPlanner.LoopState),
      (∀ e ∈ (DailyPlanner.scheduleLoop config ws we limit ts st).scheduled,
        e ∈ st.scheduled ∨ e.task ∈ ts) ∧
      (∀ e ∈ (DailyPlanner.scheduleLoop config ws we limit ts st).unscheduled,
        e ∈ st.unscheduled ∨ e.task ∈ ts) := by
  intro ts
  induction ts with
  | nil =>
    intro st
    exact ⟨fun e he => Or.inl he, fun e he => Or.inl he⟩
  | cons task rest ih =>
    intro st
    unfold DailyPlanner.scheduleLoop
    split
    · exact ⟨fun e he => Or.inl he, fun e he => Or.inl he⟩
    · split
      · constructor
        · intro e he
          rcases (ih _).1 e he with h | h
          · exact Or.inl h
          · exact Or.inr (List.mem_cons_of_mem _ h)
        · intro e he
          rcases (ih _).2 e he with h | h
          · rcases List.mem_append.mp h with h1 | h1
            · exact Or.inl h1
            · simp only [List.mem_singleton] at h1
              subst h1
              exact Or.inr (List.mem_cons_self _ _)
          · exact Or.inr (List.mem_cons_of_mem _ h)
      · split
        · constructor
          · intro e he
            rcases (ih _).1 e he with h | h
            · rcases List.mem_append.mp h with h1 | h1
              · exact Or.inl h1
              · simp only [List.mem_singleton] at h1
                subst h1
                exact Or.inr (List.mem_cons_self _ _)
            · exact Or.inr (List.mem_cons_of_mem _ h)
          · intro e he
            rcases (ih _).2 e he with h | h
            · exact Or.inl h
            · exact Or.inr (List.mem_cons_of_mem _ h)
        · constructor
          · intro e he
            rcases (ih _).1 e he with h | h
            · exact Or.inl h
            · exact Or.inr (List.mem_cons_of_mem _ h)
          · intro e he
            rcases (ih _).2 e he with h | h
            · rcases List.mem_append.mp h with h1 | h1
              · exact Or.inl h1
              · simp only [List.mem_singleton] at h1
                subst h1
                exact Or.inr (List.mem_cons_self _ _)
            · exact Or.inr (List.mem_cons_of_mem _ h)

/-- C8: every task appearing in a plan (scheduled or unscheduled) carries a
    priority computed exactly at the instant with hour max(workStartHour, 9)
    and minute workStartMinute on the plan date, and that priority is
    non-zero — so blocked tasks and tasks whose window misses that instant
    appear in neither list. -/
theorem C8_planner_priority_instant (db : Database) (pow : ℚ → ℚ → ℚ)
    (config : DailyPlanner.PlannerConfig) (date : ℤ) (limit : ℕ)
    (includeTimeBlocks : Bool) (wall : ℤ) :
    (∀ e ∈ (DailyPlanner.planDay db pow config date limit includeTimeBlocks wall).scheduled,
      e.task.priority = TaskService.calculateTaskPriority db.tasks pow e.task.task
        (DailyPlanner.priorityInstant config date) wall ∧ e.task.priority ≠ 0) ∧
    (∀ e ∈ (DailyPlanner.planDay db pow config date limit includeTimeBlocks wall).unscheduled,
      e.task.priority = TaskService.calculateTaskPriority db.tasks pow e.task.task
        (DailyPlanner.priorityInstant config date) wall ∧ e.task.priority ≠ 0) := by
  have hact : ∀ x ∈ DailyPlanner.filterActionable
      (TaskService.getByPriority db pow (some (limit * 2))
        (DailyPlanner.priorityInstant config date) wall) date,
      x.priority = TaskService.calculateTaskPriority db.tasks pow x.task
        (DailyPlanner.priorityInstant config date) wall ∧ x.priority ≠ 0 := by
    intro x hx
    obtain ⟨hmem, hnz⟩ := mem_filterActionable _ _ _ hx
    obtain ⟨hp, _⟩ := mem_getByPriority db pow _ _ _ _ hmem
    exact ⟨hp, hnz⟩
  unfold DailyPlanner.planDay
  rcases includeTimeBlocks with _ | _
  · rw [if_pos rfl]
    constructor
    · intro e he
      obtain ⟨x, hx, rfl⟩ := List.mem_map.mp he
      exact hact x (List.take_subset _ _ hx)
    · intro e he
      cases he
  · rw [if_neg (by simp)]
    constructor
    · intro e he
      rcases (scheduleLoop_mem config _ _ limit _ ⟨[], [], []⟩).1 e he with h | h
      · cases h
      · exact hact _ h
    · intro e he
      rcases (scheduleLoop_mem config _ _ limit _ ⟨[], [], []⟩).2 e he with h | h
      · cases h
      · exact hact _ h

-- ===== C4: planner slot invariants =====

namespace DailyPlanner

/-- Two half-open minute slots share a point. -/
def SlotsOverlap (a b : Slot) : Prop := max a.start b.start < min a.stop b.stop

/-- Separation: one slot ends before the other starts (symmetric). -/
def SlotsSep (a b : Slot) : Prop := a.stop ≤ b.start ∨ b.stop ≤ a.start

theorem slotsOverlap_iff (a b : Slot) :
    SlotsOverlap a b ↔ ∃ x : ℤ, (a.start ≤ x ∧ x < a.stop) ∧ (b.start ≤ x ∧ x < b.stop) := by
  unfold SlotsOverlap
  constructor
  · intro h
    exact ⟨max a.start b.start, by omega, by omega⟩
  · rintro ⟨x, h1, h2⟩
    omega

theorem slotsSep_symm {a b : Slot} (h : SlotsSep a b) : SlotsSep b a := h.symm

theorem slotsSep_not_overlap {a b : Slot} (h : SlotsSep a b) : ¬ SlotsOverlap a b := by
  unfold SlotsSep at h
  unfold SlotsOverlap
  omega

/-- A sorted, pairwise-separated list of positive-length slots is a chain:
    each slot ends before the next starts. -/
theorem sorted_sep_chain (l : List Slot)
    (hs : l.Pairwise (fun a b => a.start ≤ b.start))
    (hsep : l.Pairwise SlotsSep)
    (hpos : ∀ u ∈ l, u.start < u.stop) :
    l.Pairwise (fun a b => a.stop ≤ b.start) := by
  have hand := hs.and hsep
  refine hand.imp_of_mem ?_
  intro a b ha hb hab
  rcases hab.2 with h | h
  · exact h
  · have h1 := hpos a ha
    have h2 := hpos b hb
    unfold SlotsSep at *
    omega

theorem chained_start_le (l : List Slot) (a : Slot) (rest : List Slot)
    (hl : l = a :: rest)
    (hch : l.Pairwise (fun x y => x.stop ≤ y.start))
    (hle : ∀ u ∈ l, u.start ≤ u.stop) :
    ∀ u ∈ l, a.start ≤ u.start := by
  subst hl
  intro u hu
  rcases List.mem_cons.mp hu with h | h
  · subst h
    exact le_refl _
  · have h1 := (List.pairwise_cons.mp hch).1 u h
    have h2 := hle a (List.mem_cons_self _ _)
    omega

theorem chained_stop_le_getLast : ∀ (l : List Slot) (h : l ≠ []),
    l.Pairwise (fun x y => x.stop ≤ y.start) → (∀ u ∈ l, u.start ≤ u.stop) →
    ∀ u ∈ l, u.stop ≤ (l.getLast h).stop := by
  intro l
  induction l with
  | nil => intro h; exact absurd rfl h
  | cons a tail ih =>
    intro _ hch hle u hu
    rcases tail with _ | ⟨b, rest⟩
    · simp only [List.mem_singleton] at hu
      subst hu
      exact le_refl _
    · rw [List.getLast_cons (by simp)]
      rcases List.mem_cons.mp hu with h | h
      · subst h
        have h1 := (List.pairwise_cons.mp hch).1 b (List.mem_cons_self _ _)
        have h2 := hle b (List.mem_cons_of_mem _ (List.mem_cons_self _ _))
        have h3 := ih (by simp) (List.pairwise_cons.mp hch).2
          (fun v hv => hle v (List.mem_cons_of_mem _ hv)) b (List.mem_cons_self _ _)
        omega
      · exact ih (by simp) (List.pairwise_cons.mp hch).2
          (fun v hv => hle v (List.mem_cons_of_mem _ hv)) u h

theorem scanGapsBetween_spec (aS aE d : ℤ) :
    ∀ (l : List Slot), l.Pairwise (fun x y => x.stop ≤ y.start) →
      (∀ u ∈ l, u.start ≤ u.stop) →
      ∀ s, scanGapsBetween aS aE d l = some s →
      aS ≤ s.start ∧ s.stop = s.start + d ∧ s.stop ≤ aE ∧
      (∀ u ∈ l, u.stop ≤ s.start ∨ s.stop ≤ u.start) ∧
      (∀ a rest, l = a :: rest → a.stop ≤ s.start) := by
  intro l
  induction l with
  | nil =>
    intro _ _ s hs
    cases hs
  | cons a tail ih =>
    intro hch hle s hs
    rcases tail with _ | ⟨b, rest⟩
    · cases hs
    · unfold scanGapsBetween at hs
      by_cases hfit : min b.start aE - max a.stop aS ≥ d
      · rw [if_pos hfit] at hs
        injection hs with hs
        subst hs
        have hab : a.stop ≤ b.start := (List.pairwise_cons.mp hch).1 b (List.mem_cons_self _ _)
        refine ⟨by dsimp only; omega, rfl, by dsimp only; omega, ?_, ?_⟩
        · intro u hu
          rcases List.mem_cons.mp hu with h | h
          · subst h
            left
            dsimp only
            omega
          · rcases List.mem_cons.mp h with h1 | h1
            · subst h1
              right
              dsimp only
              omega
            · right
              have h2 := (List.pairwise_cons.mp (List.pairwise_cons.mp hch).2).1 u h1
              have h3 := hle b (List.mem_cons_of_mem _ (List.mem_cons_self _ _))
              dsimp only
              omega
        · intro x xs hx
          injection hx with h1 _
          subst h1
          dsimp only
          omega
      · rw [if_neg hfit] at hs
        have hrec := ih (List.pairwise_cons.mp hch).2
          (fun v hv => hle v (List.mem_cons_of_mem _ hv)) s hs
        have hhead : b.stop ≤ s.start := hrec.2.2.2.2 b rest rfl
        have hab : a.stop ≤ b.start := (List.pairwise_cons.mp hch).1 b (List.mem_cons_self _ _)
        have hbb : b.start ≤ b.stop := hle b (List.mem_cons_of_mem _ (List.mem_cons_self _ _))
        refine ⟨hrec.1, hrec.2.1, hrec.2.2.1, ?_, ?_⟩
        · intro u hu
          rcases List.mem_cons.mp hu with h | h
          · subst h
            left
            omega
          · exact hrec.2.2.2.1 u h
        · intro x xs hx
          injection hx with h1 _
          subst h1
          omega

theorem findAvailableSlot_spec (used : List Slot) (aS aE d : ℤ) (s : Slot)
    (hsep : used.Pairwise SlotsSep)
    (hpos : ∀ u ∈ used, u.start < u.stop)
    (hs : findAvailableSlot used aS aE d = some s) :
    aS ≤ s.start ∧ s.stop = s.start + d ∧ s.stop ≤ aE ∧ ∀ u ∈ used, SlotsSep u s := by
  have hperm : (used.mergeSort slotStartLe).Perm used := List.mergeSort_perm used slotStartLe
  have hsortb := @List.sorted_mergeSort _ slotStartLe
    (fun a b c hab hbc => by
      simp only [slotStartLe, decide_eq_true_eq] at *
      exact le_trans hab hbc)
    (fun a b => by
      simp only [slotStartLe]
      rcases le_total a.start b.start with h | h
      · simp [h]
      · simp [h])
    used
  have hsorted : (used.mergeSort slotStartLe).Pairwise (fun a b => a.start ≤ b.start) :=
    hsortb.imp (fun h => by simpa [slotStartLe] using h)
  have hsepms : (used.mergeSort slotStartLe).Pairwise SlotsSep :=
    (hperm.pairwise_iff (fun h => slotsSep_symm h)).mpr hsep
  have hposms : ∀ u ∈ used.mergeSort slotStartLe, u.start < u.stop :=
    fun u hu => hpos u (hperm.mem_iff.mp hu)
  have hch : (used.mergeSort slotStartLe).Pairwise (fun a b => a.stop ≤ b.start) :=
    sorted_sep_chain _ hsorted hsepms hposms
  have hlems : ∀ u ∈ used.mergeSort slotStartLe, u.start ≤ u.stop :=
    fun u hu => le_of_lt (hposms u hu)
  unfold findAvailableSlot at hs
  rcases hms : used.mergeSort slotStartLe with _ | ⟨first, rest⟩
  · rw [hms] at hs
    dsimp only at hs
    have hempty : used = [] := by
      have := hperm
      rw [hms] at this
      exact (this.symm.eq_nil)
    subst hempty
    by_cases hc : aE - aS ≥ d
    · rw [if_pos hc] at hs
      injection hs with hs
      subst hs
      exact ⟨le_refl _, rfl, by dsimp only; omega, fun u hu => absurd hu (by simp)⟩
    · rw [if_neg hc] at hs
      cases hs
  · rw [hms] at hs hch hlems hsorted hsepms hposms
    dsimp only at hs
    have hmem : ∀ u ∈ used, u ∈ first :: rest := by
      intro u hu
      have := hperm
      rw [hms] at this
      exact this.mem_iff.mpr hu
    by_cases hc1 : first.start > aS ∧ min first.start aE - aS ≥ d
    · rw [if_pos hc1] at hs
      injection hs with hs
      subst hs
      refine ⟨le_refl _, rfl, by dsimp only; omega, ?_⟩
      intro u hu
      right
      have h1 : first.start ≤ u.start :=
        chained_start_le _ first rest rfl hch hlems u (hmem u hu)
      dsimp only
      omega
    · rw [if_neg hc1] at hs
      rcases hscan : scanGapsBetween aS aE d (first :: rest) with _ | q
      · rw [hscan] at hs
        by_cases hc2 : ((first :: rest).getLast (List.cons_ne_nil first rest)).stop < aE ∧
            aE - max ((first :: rest).getLast (List.cons_ne_nil first rest)).stop aS ≥ d
        · rw [if_pos hc2] at hs
          injection hs with hs
          subst hs
          refine ⟨by dsimp only; omega, rfl, by dsimp only; omega, ?_⟩
          intro u hu
          left
          have h1 := chained_stop_le_getLast (first :: rest) (List.cons_ne_nil first rest)
            hch hlems u (hmem u hu)
          dsimp only
          omega
        · rw [if_neg hc2] at hs
          cases hs
      · rw [hscan] at hs
        injection hs with hs
        subst hs
        have hspec := scanGapsBetween_spec aS aE d (first :: rest) hch hlems q hscan
        refine ⟨hspec.1, hspec.2.1, hspec.2.2.1, ?_⟩
        intro u hu
        exact hspec.2.2.2.1 u (hmem u hu)

/-- Per-entry containment facts for a scheduled entry. -/
def scheduledOk (workStart workEnd : ℤ) (e : ScheduledTask) : Prop :=
  workStart ≤ e.slot.start ∧ e.slot.stop ≤ workEnd ∧ e.slot.start < e.slot.stop ∧
  ∀ hw hv, e.task.task.window_start = some hw → e.task.task.window_end = some hv →
    max workStart (parseTime hw) ≤ e.slot.start ∧ e.slot.stop ≤ min workEnd (parseTime hv)

/-- Invariant of the scheduling loop state: used slots are pairwise
    separated, have positive length, and are exactly (up to order) the
    slots of the scheduled entries, each of which is contained as claimed. -/
def LoopInv (workStart workEnd : ℤ) (st : LoopState) : Prop :=
  st.usedSlots.Pairwise SlotsSep ∧ (∀ u ∈ st.usedSlots, u.start < u.stop) ∧
  st.usedSlots.Perm (st.scheduled.map ScheduledTask.slot) ∧
  ∀ e ∈ st.scheduled, scheduledOk workStart workEnd e

theorem scheduleLoop_slots (config : PlannerConfig) (workStart workEnd : ℤ) (limit : ℕ)
    (hdef : 0 < config.defaultEstimateMinutes) :
    ∀ (ts : List TaskService.TaskWithPriority) (st : LoopState),
      (∀ x ∈ ts, ∀ n, x.task.estimate_minutes = some n → 0 < n) →
      LoopInv workStart workEnd st →
      LoopInv workStart workEnd (scheduleLoop config workStart workEnd limit ts st) := by
  intro ts
  induction ts with
  | nil =>
    intro st _ hinv
    simpa only [scheduleLoop] using hinv
  | cons task rest ih =>
    intro st hest hinv
    have hestrest : ∀ x ∈ rest, ∀ n, x.task.estimate_minutes = some n → 0 < n :=
      fun x hx => hest x (List.mem_cons_of_mem _ hx)
    simp only [scheduleLoop]
    by_cases hlim : st.scheduled.length ≥ limit
    · rw [if_pos hlim]
      exact hinv
    · rw [if_neg hlim]
      obtain ⟨hsep, hpos, hperm, hok⟩ := hinv
      -- the duration used for this task is positive
      have hdur : 0 < task.task.estimate_minutes.getD config.defaultEstimateMinutes := by
        rcases hn : task.task.estimate_minutes with _ | n
        · simpa using hdef
        · simpa using hest task (List.mem_cons_self _ _) n hn
      -- helper: invariant is preserved when only `unscheduled` grows
      have hunsched : ∀ msg : String, LoopInv workStart workEnd
          { st with unscheduled := st.unscheduled ++ [⟨task, msg⟩] } :=
        fun _ => ⟨hsep, hpos, hperm, hok⟩
      -- helper: invariant after scheduling into a returned slot
      have hsched : ∀ (a slot : Slot),
          findAvailableSlot st.usedSlots a.start a.stop
            (task.task.estimate_minutes.getD config.defaultEstimateMinutes) = some slot →
          (workStart ≤ a.start ∧ a.stop ≤ workEnd) →
          (∀ hw hv, task.task.window_start = some hw → task.task.window_end = some hv →
            max workStart (parseTime hw) ≤ a.start ∧ a.stop ≤ min workEnd (parseTime hv)) →
          LoopInv workStart workEnd
            { usedSlots := (st.usedSlots ++ [slot]).mergeSort slotStartLe,
              scheduled := st.scheduled ++
                [⟨task, slot, task.task.estimate_minutes.getD config.defaultEstimateMinutes,
                  isDefaultEstimateOf task.task.estimate_minutes⟩],
              unscheduled := st.unscheduled } := by
        intro a slot hfind hbounds hwin
        obtain ⟨hs1, hs2, hs3, hs4⟩ := findAvailableSlot_spec st.usedSlots a.start a.stop
          (task.task.estimate_minutes.getD config.defaultEstimateMinutes) slot hsep hpos hfind
        have hperm2 : ((st.usedSlots ++ [slot]).mergeSort slotStartLe).Perm
            (st.usedSlots ++ [slot]) := List.mergeSort_perm _ _
        have hsepapp : (st.usedSlots ++ [slot]).Pairwise SlotsSep := by
          rw [List.pairwise_append]
          exact ⟨hsep, List.pairwise_singleton _ _, fun u hu v hv => by
            rw [List.mem_singleton] at hv
            subst hv
            exact hs4 u hu⟩
        refine ⟨(hperm2.pairwise_iff (fun h => slotsSep_symm h)).mpr hsepapp, ?_, ?_, ?_⟩
        · intro u hu
          rcases List.mem_append.mp (hperm2.mem_iff.mp hu) with h | h
          · exact hpos u h
          · rw [List.mem_singleton] at h
            subst h
            omega
        · simp only [List.map_append, List.map_cons, List.map_nil]
          exact hperm2.trans (hperm.append_right _)
        · intro e he
          rcases List.mem_append.mp he with h | h
          · exact hok e h
          · rw [List.mem_singleton] at h
            subst h
            refine ⟨by dsimp only; omega, by dsimp only; omega, by dsimp only; omega, ?_⟩
            intro hw hv h1 h2
            have := hwin hw hv h1 h2
            dsimp only
            omega
      rcases hw1 : task.task.window_start with _ | ws0 <;>
        rcases hw2 : task.task.window_end with _ | we0 <;>
        dsimp only
      · rcases hfind : findAvailableSlot st.usedSlots workStart workEnd
            (task.task.estimate_minutes.getD config.defaultEstimateMinutes) with _ | slot <;>
          dsimp only
        · exact ih _ hestrest (hunsched "does not fit")
        · refine ih _ hestrest (hsched ⟨workStart, workEnd⟩ slot hfind
            ⟨le_refl _, le_refl _⟩ ?_)
          intro hw hv h1 h2
          rw [hw1] at h1
          cases h1
      · rcases hfind : findAvailableSlot st.usedSlots workStart workEnd
            (task.task.estimate_minutes.getD config.defaultEstimateMinutes) with _ | slot <;>
          dsimp only
        · exact ih _ hestrest (hunsched "does not fit")
        · refine ih _ hestrest (hsched ⟨workStart, workEnd⟩ slot hfind
            ⟨le_refl _, le_refl _⟩ ?_)
          intro hw hv h1 h2
          rw [hw1] at h1
          cases h1
      · rcases hfind : findAvailableSlot st.usedSlots workStart workEnd
            (task.task.estimate_minutes.getD config.defaultEstimateMinutes) with _ | slot <;>
          dsimp only
        · exact ih _ hestrest (hunsched "does not fit")
        · refine ih _ hestrest (hsched ⟨workStart, workEnd⟩ slot hfind
            ⟨le_refl _, le_refl _⟩ ?_)
          intro hw hv h1 h2
          rw [hw2] at h2
          cases h2
      · rcases hri : rangeIntersection workStart workEnd (parseTime ws0) (parseTime we0)
          with _ | a <;> dsimp only
        · exact ih _ hestrest (hunsched "window outside work hours")
        · have ha : a = ⟨max workStart (parseTime ws0), min workEnd (parseTime we0)⟩ := by
            unfold rangeIntersection at hri
            by_cases hc : max workStart (parseTime ws0) ≥ min workEnd (parseTime we0)
            · rw [if_pos hc] at hri
              cases hri
            · rw [if_neg hc] at hri
              injection hri with h
              exact h.symm
          subst ha
          dsimp only
          rcases hfind : findAvailableSlot st.usedSlots
              (max workStart (parseTime ws0)) (min workEnd (parseTime we0))
              (task.task.estimate_minutes.getD config.defaultEstimateMinutes) with _ | slot <;>
            dsimp only
          · exact ih _ hestrest (hunsched "does not fit")
          · refine ih _ hestrest (hsched ⟨max workStart (parseTime ws0),
              min workEnd (parseTime we0)⟩ slot hfind ⟨by dsimp only; omega,
              by dsimp only; omega⟩ ?_)
            intro hw hv h1 h2
            rw [hw1] at h1
            rw [hw2] at h2
            injection h1 with h1
            injection h2 with h2
            subst h1
            subst h2
            exact ⟨le_refl _, le_refl _⟩

theorem scheduleLoop_length (config : PlannerConfig) (workStart workEnd : ℤ) (limit : ℕ) :
    ∀ (ts : List TaskService.TaskWithPriority) (st : LoopState),
      st.scheduled.length ≤ limit →
      (scheduleLoop config workStart workEnd limit ts st).scheduled.length ≤ limit := by
  intro ts
  induction ts with
  | nil =>
    intro st h
    simpa only [scheduleLoop] using h
  | cons task rest ih =>
    intro st h
    simp only [scheduleLoop]
    by_cases hlim : st.scheduled.length ≥ limit
    · rw [if_pos hlim]
      exact h
    · rw [if_neg hlim]
      rcases task.task.window_start with _ | ws0 <;> rcases task.task.window_end with _ | we0 <;>
        dsimp only
      · rcases findAvailableSlot st.usedSlots workStart workEnd
            (task.task.estimate_minutes.getD config.defaultEstimateMinutes) with _ | slot <;>
          dsimp only
        · exact ih _ h
        · refine ih _ ?_
          simp only [List.length_append, List.length_cons, List.length_nil]
          omega
      · rcases findAvailableSlot st.usedSlots workStart workEnd
            (task.task.estimate_minutes.getD config.defaultEstimateMinutes) with _ | slot <;>
          dsimp only
        · exact ih _ h
        · refine ih _ ?_
          simp only [List.length_append, List.length_cons, List.length_nil]
          omega
      · rcases findAvailableSlot st.usedSlots workStart workEnd
            (task.task.estimate_minutes.getD config.defaultEstimateMinutes) with _ | slot <;>
          dsimp only
        · exact ih _ h
        · refine ih _ ?_
          simp only [List.length_append, List.length_cons, List.length_nil]
          omega
      · rcases rangeIntersection workStart workEnd (parseTime ws0) (parseTime we0) with _ | a <;>
          dsimp only
        · exact ih _ h
        · rcases findAvailableSlot st.usedSlots a.start a.stop
              (task.task.estimate_minutes.getD config.defaultEstimateMinutes) with _ | slot <;>
            dsimp only
          · exact ih _ h
          · refine ih _ ?_
            simp only [List.length_append, List.length_cons, List.length_nil]
            omega

end DailyPlanner

/-- C4 (amended: estimates are required to be positive — the unamended claim
    is refuted by the counterexample): for every `planDay` call with
    `includeTimeBlocks = true`, provided every task's `estimate_minutes`
    (when present) is positive and the planner's `defaultEstimateMinutes` is
    positive, the emitted scheduled slots are pairwise non-overlapping, each
    slot lies within `[workStart, workEnd)` and — when the task has a time
    window — within the intersection of the work hours with that window, and
    the number of scheduled entries never exceeds `limit`. -/
theorem C4_planDay_slot_invariants (db : Database) (pow : ℚ → ℚ → ℚ)
    (config : DailyPlanner.PlannerConfig) (date : ℤ) (limit : ℕ) (wall : ℤ)
    (hest : ∀ t ∈ db.tasks, ∀ n, t.estimate_minutes = some n → 0 < n)
    (hdef : 0 < config.defaultEstimateMinutes) :
    ((DailyPlanner.planDay db pow config date limit true wall).scheduled.map
        DailyPlanner.ScheduledTask.slot).Pairwise
      (fun a b => ¬ DailyPlanner.SlotsOverlap a b) ∧
    (∀ e ∈ (DailyPlanner.planDay db pow config date limit true wall).scheduled,
      DailyPlanner.scheduledOk (parseTime config.workHoursStart)
        (parseTime config.workHoursEnd) e) ∧
    (DailyPlanner.planDay db pow config date limit true wall).scheduled.length ≤ limit := by
  have hacts : ∀ x ∈ DailyPlanner.filterActionable
      (TaskService.getByPriority db pow (some (limit * 2))
        (DailyPlanner.priorityInstant config date) wall) date,
      ∀ n, x.task.estimate_minutes = some n → 0 < n := by
    intro x hx
    obtain ⟨hmem, _⟩ := mem_filterActionable _ _ _ hx
    obtain ⟨_, htask⟩ := mem_getByPriority db pow _ _ _ _ hmem
    exact hest x.task htask
  have hinv0 : DailyPlanner.LoopInv (parseTime config.workHoursStart)
      (parseTime config.workHoursEnd) ⟨[], [], []⟩ :=
    ⟨List.Pairwise.nil, fun u hu => absurd hu (by simp), List.Perm.refl _,
      fun e he => absurd he (by simp)⟩
  have hloop := DailyPlanner.scheduleLoop_slots config (parseTime config.workHoursStart)
    (parseTime config.workHoursEnd) limit hdef _ ⟨[], [], []⟩ hacts hinv0
  have hlen := DailyPlanner.scheduleLoop_length config (parseTime config.workHoursStart)
    (parseTime config.workHoursEnd) limit (DailyPlanner.filterActionable
      (TaskService.getByPriority db pow (some (limit * 2))
        (DailyPlanner.priorityInstant config date) wall) date) ⟨[], [], []⟩ (by simp)
  obtain ⟨hsep, _, hperm, hok⟩ := hloop
  unfold DailyPlanner.planDay
  rw [if_neg (by simp)]
  refine ⟨?_, hok, hlen⟩
  have hp : ((DailyPlanner.scheduleLoop config (parseTime config.workHoursStart)
      (parseTime config.workHoursEnd) limit (DailyPlanner.filterActionable
        (TaskService.getByPriority db pow (some (limit * 2))
          (DailyPlanner.priorityInstant config date) wall) date)
      ⟨[], [], []⟩).scheduled.map DailyPlanner.ScheduledTask.slot).Pairwise
      DailyPlanner.SlotsSep :=
    (hperm.pairwise_iff (fun h => DailyPlanner.slotsSep_symm h)).mp hsep
  exact hp.imp DailyPlanner.slotsSep_not_overlap

instance slotsOverlapDec (a b : DailyPlanner.Slot) : Decidable (DailyPlanner.SlotsOverlap a b) :=
  inferInstanceAs (Decidable (max a.start b.start < min a.stop b.stop))

/-- A `Math.pow` model for concrete runs; the stores below only build linear
    curves, so it is never consulted. -/
def c4cexPow : ℚ → ℚ → ℚ := fun _ _ => 1

/-- Four open tasks, no windows, overdue linear curves ordering them by
    priority 1 > 2 > 3 > 4; estimates 3, 6, 0, 5 minutes.  The 0-minute
    estimate is scheduled as the empty slot [483, 483), which then becomes
    the "last" used slot, so the next task is backfilled at 483 on top of
    the already-placed [483, 489). -/
def c4zeroStore : Database :=
  ⟨[{ id := 1, estimate_minutes := some 3,
      curve_config := { type := .linear, start_date := some 0, deadline := some 8640000000 } },
    { id := 2, estimate_minutes := some 6,
      curve_config := { type := .linear, start_date := some 0, deadline := some 9504000000 } },
    { id := 3, estimate_minutes := some 0,
      curve_config := { type := .linear, start_date := some 0, deadline := some 10368000000 } },
    { id := 4, estimate_minutes := some 5,
      curve_config := { type := .linear, start_date := some 0, deadline := some 11232000000 } }],
   []⟩

/-- Three open tasks with a negative estimate on the highest-priority one:
    its backwards slot [490, 485) corrupts the gap bookkeeping and the next
    two tasks receive genuinely overlapping positive slots [488, 518) and
    [485, 505). -/
def c4negStore : Database :=
  ⟨[{ id := 1, estimate_minutes := some (-5), window_start := some ⟨8, 10⟩,
      window_end := some ⟨17, 0⟩,
      curve_config := { type := .linear, start_date := some 0, deadline := some 8640000000 } },
    { id := 2, estimate_minutes := some 30, window_start := some ⟨8, 8⟩,
      window_end := some ⟨17, 0⟩,
      curve_config := { type := .linear, start_date := some 0, deadline := some 10368000000 } },
    { id := 3, estimate_minutes := some 20,
      curve_config := { type := .linear, start_date := some 0, deadline := some 12096000000 } }],
   []⟩

/-- A one-task store with a positive estimate, for the amended-claim witness. -/
def c4witStore : Database :=
  ⟨[{ id := 1, estimate_minutes := some 30,
      curve_config := { type := .linear, start_date := some 0, deadline := some 8640000000 } }],
   []⟩

unseal CurveFactory.create List.merge List.mergeSort Nat.gcd Rat.add Rat.mul Rat.inv Rat.sub Rat.ofScientific in
/-- Counterexample to C4 as stated: `planDay` with `includeTimeBlocks = true`
    can emit overlapping scheduled slots.  First store: all estimates are
    nonnegative but one is 0 (scheduled slots (480,483), (483,489),
    (483,483), (483,488) — the last overlaps the second), so even nonnegative
    estimates do not suffice.  Second store: a negative estimate likewise
    yields overlapping slots (488,518) and (485,505).  Together they force
    the amended claim's strictly-positive-estimate hypotheses. -/
theorem C4_counterexample :
    ¬ (((DailyPlanner.planDay c4zeroStore c4cexPow DailyPlanner.DEFAULT_CONFIG
          17280000000 8 true 0).scheduled.map DailyPlanner.ScheduledTask.slot).Pairwise
        (fun a b => ¬ DailyPlanner.SlotsOverlap a b)) ∧
    ¬ (((DailyPlanner.planDay c4negStore c4cexPow DailyPlanner.DEFAULT_CONFIG
          17280000000 8 true 0).scheduled.map DailyPlanner.ScheduledTask.slot).Pairwise
        (fun a b => ¬ DailyPlanner.SlotsOverlap a b)) := by
  constructor
  · intro h
    revert h
    decide
  · intro h
    revert h
    decide

/-- Witness for the amended C4 at a concrete store with a positive estimate
    and the default planner config. -/
theorem C4_witness :
    (∀ t ∈ c4witStore.tasks, ∀ n, t.estimate_minutes = some n → 0 < n) ∧
    0 < DailyPlanner.DEFAULT_CONFIG.defaultEstimateMinutes ∧
    (((DailyPlanner.planDay c4witStore c4cexPow DailyPlanner.DEFAULT_CONFIG
          17280000000 8 true 0).scheduled.map DailyPlanner.ScheduledTask.slot).Pairwise
        (fun a b => ¬ DailyPlanner.SlotsOverlap a b) ∧
      (∀ e ∈ (DailyPlanner.planDay c4witStore c4cexPow DailyPlanner.DEFAULT_CONFIG
          17280000000 8 true 0).scheduled,
        DailyPlanner.scheduledOk (parseTime DailyPlanner.DEFAULT_CONFIG.workHoursStart)
          (parseTime DailyPlanner.DEFAULT_CONFIG.workHoursEnd) e) ∧
      (DailyPlanner.planDay c4witStore c4cexPow DailyPlanner.DEFAULT_CONFIG
          17280000000 8 true 0).scheduled.length ≤ 8) := by
  have hest : ∀ t ∈ c4witStore.tasks, ∀ n, t.estimate_minutes = some n → 0 < n := by
    intro t ht n hn
    simp only [c4witStore, List.mem_singleton] at ht
    subst ht
    simp only [] at hn
    injection hn with hn
    omega
  exact ⟨hest, by decide, C4_planDay_slot_invariants c4witStore c4cexPow
    DailyPlanner.DEFAULT_CONFIG 17280000000 8 0 hest (by decide)⟩

end Churn
